import Mathlib

/-!
# storj/linksharing: the link-sharing HTTP handler

A shallow embedding of `handler/handler.go`.

* Go strings are sequences of bytes, modelled as `List Char`.
* The Go standard-library string helpers the handler calls (`strings.TrimPrefix`,
  `strings.SplitN`, `strings.Split`, `strings.HasPrefix`, `strings.HasSuffix`,
  `strings.TrimRight`, `strconv.Atoi`, `net.SplitHostPort`) are written out as functions.
* The storage backend (`uplink`), DNS, templates, and the remaining standard-library
  calls are capabilities of an environment; what the handler does to the
  `http.ResponseWriter` and which capabilities it calls is recorded as a list of events.
* Logging (`zap`), monitoring (`monkit`) and the debugging `fmt.Println` calls do not
  influence the response and are left out.
-/

namespace Linksharing

/-- A Go string: its sequence of bytes. -/
abbrev Str := List Char

/-! ## Errors and results -/

/-- What `errors.Is` reports about an error against the two sentinels of the `uplink`
library that the handler tests for. -/
inductive ErrKind where
  | bucketNotFound
  | objectNotFound
  | other
  deriving DecidableEq, Repr

/-- A Go `error` value: the text of `err.Error()` together with its sentinel class. -/
structure Error where
  kind : ErrKind
  msg : Str
  deriving DecidableEq, Repr

/-- Go `errors.New(msg)`. -/
def errorsNew (msg : Str) : Error := ⟨ErrKind.other, msg⟩

deriving instance DecidableEq for Except

/-- How a Go function that returns `(values, error)` ends: with values and a nil error,
with a non-nil error, or with a run-time panic (an index out of range). -/
inductive Outcome (α : Type) where
  | ok (val : α)
  | fail (err : Error)
  | panic
  deriving DecidableEq, Repr

/-! ## Standard-library string functions -/

/-- Go `strings.HasPrefix(s, pre)`. -/
def hasPrefix (s pre : Str) : Bool := pre.isPrefixOf s

/-- Go `strings.HasSuffix(s, suf)`. -/
def hasSuffix (s suf : Str) : Bool := suf.isSuffixOf s

/-- Go `strings.TrimPrefix(s, pre)`: `s` without the leading `pre`, or `s` unchanged. -/
def trimPrefix (s pre : Str) : Str :=
  if hasPrefix s pre then s.drop pre.length else s

/-- Go `strings.TrimRight(s, cutset)` for a one-byte cutset: all trailing `c` removed. -/
def trimRight (s : Str) (c : Char) : Str :=
  (s.reverse.dropWhile (fun x => x == c)).reverse

/-- The text before and after the first occurrence of the one-byte separator `sep`
(`strings.Index` followed by the two slicings of `genSplit`), `none` if `sep` is absent. -/
def cut (sep : Char) : Str → Option (Str × Str)
  | [] => none
  | c :: cs =>
    if c = sep then some ([], cs)
    else
      match cut sep cs with
      | none => none
      | some (a, b) => some (c :: a, b)

/-- Go `strings.SplitN(s, sep, n)` for a one-byte separator and `n ≥ 0`: at most `n`
substrings, the last one being the unsplit remainder. -/
def splitN (sep : Char) : Nat → Str → List Str
  | 0, _ => []
  | 1, s => [s]
  | n + 2, s =>
    match cut sep s with
    | none => [s]
    | some (a, b) => a :: splitN sep (n + 1) b

/-- Go `strings.Split(s, sep)` for a one-byte separator: `SplitN` with
`n = strings.Count(s, sep) + 1`. -/
def split (sep : Char) (s : Str) : List Str :=
  splitN sep (s.count sep + 1) s

/-! ## The path parser -/

/-- The values `parseRequestPath` returns with a nil error. -/
structure RequestPath (Access : Type) where
  rawRequest : Bool
  access : Access
  serializedAccess : Str
  bucket : Str
  key : Str
  deriving DecidableEq, Repr

/-- The re-sliced `segments` of `parseRequestPath` after its `len(segments) == 4` block,
with the `rawRequest` flag. -/
def collapseSegments (segments : List Str) : Bool × List Str :=
  match segments with
  | [s0, s1, s2, s3] =>
    if s0 = "raw".toList then (true, [s1, s2, s3])
    else (false, [s0, s1, s2 ++ '/' :: s3])
  | _ => (false, segments)

/-- Go `parseRequestPath(p)`; `parseAccess` is `uplink.ParseAccess`. -/
def parseRequestPath {Access : Type} (parseAccess : Str → Except Error Access) (p : Str) :
    Outcome (RequestPath Access) :=
  let p := trimPrefix p "/".toList
  let segments := splitN '/' 4 p
  let (rawRequest, segments) := collapseSegments segments
  match segments with
  | [] => Outcome.panic
  | [s0] =>
    if s0 = [] then Outcome.fail (errorsNew "missing access".toList)
    else Outcome.fail (errorsNew "missing bucket".toList)
  | s0 :: s1 :: rest =>
    let key := match rest with
      | [k] => k
      | _ => []
    match parseAccess s0 with
    | Except.error err => Outcome.fail err
    | Except.ok access => Outcome.ok ⟨rawRequest, access, s0, s1, key⟩

/-! ## Integer parsing and host/port splitting -/

/-- The double-quote byte. -/
def dquote : Char := Char.ofNat 34

/-- Go `strconv.Quote(s)` for text without bytes that need an escape. -/
def strconvQuote (s : Str) : Str := dquote :: s ++ [dquote]

/-- The `*strconv.NumError` that `strconv.Atoi` returns for input `s`. -/
def numError (s why : Str) : Error :=
  errorsNew ("strconv.Atoi: parsing ".toList ++ strconvQuote s ++ ": ".toList ++ why)

/-- The digit loop of `strconv.ParseUint(s, 10, 64)`, started with the value `acc`: a byte
that is no decimal digit is a syntax error, a value above `2^64 - 1` a range error. -/
def parseUint : Str → Nat → Except Str Nat
  | [], acc => Except.ok acc
  | c :: cs, acc =>
    if c.isDigit then
      if acc * 10 + (c.toNat - 48) < 2 ^ 64 then parseUint cs (acc * 10 + (c.toNat - 48))
      else Except.error "value out of range".toList
    else Except.error "invalid syntax".toList

/-- Go `strconv.Atoi(s)` on a 64-bit platform: an optional sign, then one or more decimal
digits, with a value that fits an `int`. -/
def atoi (s : Str) : Except Error Int :=
  let neg := s.head? = some '-'
  let digits := if s.head? = some '-' ∨ s.head? = some '+' then s.drop 1 else s
  if digits = [] then Except.error (numError s "invalid syntax".toList)
  else
    match parseUint digits 0 with
    | Except.error why => Except.error (numError s why)
    | Except.ok un =>
      if neg then
        if un ≤ 2 ^ 63 then Except.ok (-(un : Int))
        else Except.error (numError s "value out of range".toList)
      else
        if un < 2 ^ 63 then Except.ok (un : Int)
        else Except.error (numError s "value out of range".toList)

/-- Go `strings.IndexByte(s, c)`: the index of the first `c`, `none` for `-1`. -/
def indexByte (c : Char) : Str → Option Nat
  | [] => none
  | x :: xs =>
    if x = c then some 0
    else
      match indexByte c xs with
      | none => none
      | some i => some (i + 1)

/-- Go `strings.LastIndexByte(s, c)`: the index of the last `c`, `none` for `-1`. -/
def lastIndexByte (c : Char) (s : Str) : Option Nat :=
  match indexByte c s.reverse with
  | none => none
  | some i => some (s.length - 1 - i)

/-- The `*net.AddrError` of `net.SplitHostPort`. -/
def addrError (addr why : Str) : Error :=
  errorsNew ("address ".toList ++ addr ++ ": ".toList ++ why)

/-- Go `net.SplitHostPort(hostport)`: host and port around the last colon; the host may
be a bracketed IPv6 literal. It fails when there is no colon. -/
def splitHostPort (hostport : Str) : Except Error (Str × Str) :=
  match lastIndexByte ':' hostport with
  | none => Except.error (addrError hostport "missing port in address".toList)
  | some i =>
    if hostport.head? = some '[' then
      match indexByte ']' hostport with
      | none => Except.error (addrError hostport "missing ']' in address".toList)
      | some e =>
        if e + 1 = hostport.length then
          Except.error (addrError hostport "missing port in address".toList)
        else if e + 1 = i then
          if (indexByte '[' (hostport.drop 1)).isSome then
            Except.error (addrError hostport "unexpected '[' in address".toList)
          else if (indexByte ']' (hostport.drop (e + 1))).isSome then
            Except.error (addrError hostport "unexpected ']' in address".toList)
          else Except.ok ((hostport.take e).drop 1, hostport.drop (i + 1))
        else if hostport.get? (e + 1) = some ':' then
          Except.error (addrError hostport "too many colons in address".toList)
        else Except.error (addrError hostport "missing port in address".toList)
    else
      if (indexByte ':' (hostport.take i)).isSome then
        Except.error (addrError hostport "too many colons in address".toList)
      else if (indexByte '[' hostport).isSome then
        Except.error (addrError hostport "unexpected '[' in address".toList)
      else if (indexByte ']' hostport).isSome then
        Except.error (addrError hostport "unexpected ']' in address".toList)
      else Except.ok (hostport.take i, hostport.drop (i + 1))

/-! ## Go maps -/

/-- A Go `map[κ]ν`: its entries, at most one per key. -/
structure GoMap (κ ν : Type) where
  entries : List (κ × ν)
  deriving DecidableEq, Repr

namespace GoMap

variable {κ ν : Type} [DecidableEq κ]

/-- The empty map, `map[κ]ν{}`. -/
def empty : GoMap κ ν := ⟨[]⟩

/-- The lookup `v, ok := m[k]`. -/
def get? (m : GoMap κ ν) (k : κ) : Option ν :=
  match m.entries.find? (fun e => decide (e.1 = k)) with
  | none => none
  | some e => some e.2

/-- The assignment `m[k] = v`: an entry for `k` is replaced. -/
def set (m : GoMap κ ν) (k : κ) (v : ν) : GoMap κ ν :=
  ⟨(k, v) :: m.entries.filter (fun e => decide (e.1 ≠ k))⟩

/-- Go `len(m)`. -/
def len (m : GoMap κ ν) : Nat := m.entries.length

end GoMap

/-! ## The TXT record resolver -/

/-- The body of the loop `for _, record := range records` of `parseRecords`, on the
state `(grants, root)`. -/
def parseRecordsStep (st : GoMap Int Str × Str) (record : Str) :
    Outcome (GoMap Int Str × Str) :=
  let r := splitN ':' 2 record
  match r[0]? with
  | none => Outcome.panic
  | some r0 =>
    if hasPrefix r0 "storj_grant".toList then
      match (split '-' r0)[1]? with
      | none => Outcome.panic
      | some sec =>
        match atoi sec with
        | Except.error err => Outcome.fail err
        | Except.ok key =>
          match r[1]? with
          | none => Outcome.panic
          | some v => Outcome.ok (st.1.set key v, st.2)
    else if r0 = "storj_root".toList then
      match r[1]? with
      | none => Outcome.panic
      | some v => Outcome.ok (st.1, v)
    else Outcome.ok st

/-- The loop `for _, record := range records` of `parseRecords`. -/
def parseRecordsLoop : List Str → GoMap Int Str × Str → Outcome (GoMap Int Str × Str)
  | [], st => Outcome.ok st
  | record :: rest, st =>
    match parseRecordsStep st record with
    | Outcome.ok st1 => parseRecordsLoop rest st1
    | Outcome.fail err => Outcome.fail err
    | Outcome.panic => Outcome.panic

/-- The loop `for i := 1; i <= len(grants); i++` of `parseRecords`, with `remaining`
iterations to go, the counter at `i` and the text assembled so far. -/
def joinGrants (grants : GoMap Int Str) : Nat → Int → Str → Outcome Str
  | 0, _, serializedAccess => Outcome.ok serializedAccess
  | remaining + 1, i, serializedAccess =>
    if (grants.get? i).getD [] = [] then Outcome.fail (errorsNew "missing grants".toList)
    else joinGrants grants remaining (i + 1) (serializedAccess ++ (grants.get? i).getD [])

/-- Go `parseRecords(records)`; `parseAccess` is `uplink.ParseAccess`. With a non-nil
error the callers use neither the access nor the root, so only the error is kept. -/
def parseRecords {Access : Type} (parseAccess : Str → Except Error Access)
    (records : List Str) : Outcome (Access × Str) :=
  match parseRecordsLoop records (GoMap.empty, []) with
  | Outcome.panic => Outcome.panic
  | Outcome.fail err => Outcome.fail err
  | Outcome.ok (grants, root) =>
    if root = [] then Outcome.fail (errorsNew "missing root path in txt record".toList)
    else
      match joinGrants grants grants.len 1 [] with
      | Outcome.panic => Outcome.panic
      | Outcome.fail err => Outcome.fail err
      | Outcome.ok serializedAccess =>
        match parseAccess serializedAccess with
        | Except.error err => Outcome.fail err
        | Except.ok access => Outcome.ok (access, root)

/-! ## The credential cache -/

/-- Go `txtRecord`; a `time.Time` is an instant counted in nanoseconds. -/
structure TxtRecord (Access : Type) where
  access : Access
  root : Str
  timestamp : Int
  deriving DecidableEq, Repr

/-- Go `txtRecords` (the mutex is the lock around each operation below). -/
structure TxtRecords (Access : Type) where
  cache : GoMap Str (TxtRecord Access)
  ttl : Int
  deriving DecidableEq, Repr

/-- Go `recordIsExpired(record, ttl)`, with `now` the value of `time.Now()`. -/
def recordIsExpired {Access : Type} (record : TxtRecord Access) (ttl now : Int) : Bool :=
  decide (record.timestamp + ttl < now)

/-- Go `Handler.checkCache(hostname)`: the stored record, if any, and `exists`. -/
def checkCache {Access : Type} (t : TxtRecords Access) (now : Int) (hostname : Str) :
    Option (TxtRecord Access) × Bool :=
  match t.cache.get? hostname with
  | some record => if !recordIsExpired record t.ttl now then (some record, true)
    else (some record, false)
  | none => (none, false)

/-- Go `Handler.updateCache(hostname, root, access)`, with `now` the value of
`time.Now()`. -/
def updateCache {Access : Type} (t : TxtRecords Access) (now : Int) (hostname root : Str)
    (access : Access) : TxtRecords Access :=
  { t with cache := t.cache.set hostname ⟨access, root, now⟩ }

/-! ## Requests, responses and the environment -/

/-- The fields of `url.URL` the handler reads; `user` is `u.User`. -/
structure URL where
  scheme : Str
  user : Option Str
  host : Str
  path : Str
  rawQuery : Str
  fragment : Str
  deriving DecidableEq, Repr

/-- The fields of `http.Request` the handler reads: `r.Method`, `r.Host`, `r.URL.Path`
and the keys of `r.URL.Query()`. -/
structure Request where
  method : Str
  host : Str
  path : Str
  query : List Str
  deriving DecidableEq, Repr

/-- Go `Location`; a `float64` is carried as its bit pattern. -/
structure Location where
  Latitude : Nat
  Longitude : Nat
  deriving DecidableEq, Repr

/-- The fields of `uplink.Object` the handler reads. -/
structure Object where
  Key : Str
  IsPrefix : Bool
  ContentLength : Int
  Created : Int
  deriving DecidableEq, Repr

/-- Go `objectRanger` (the project handle is the one of the request). -/
structure ObjectRanger where
  o : Object
  bucket : Str
  deriving DecidableEq, Repr

/-- Go `objectRanger.Size()`. -/
def ObjectRanger.Size (ranger : ObjectRanger) : Int := ranger.o.ContentLength

/-- The `Item` of `servePrefix`. -/
structure Item where
  Name : Str
  Size : Str
  Prefix : Bool
  deriving DecidableEq, Repr

/-- The `Breadcrumb` of `servePrefix`. -/
structure Breadcrumb where
  Prefix : Str
  URL : Str
  deriving DecidableEq, Repr

/-- The data handed to a template. -/
inductive TemplateData where
  | message (text : Str)
  | listing (Bucket : Str) (Breadcrumbs : List Breadcrumb) (Items : List Item)
  | singleObject (Name Size : Str) (Locations : List Location) (Pieces : Int)
  deriving DecidableEq, Repr

/-- What a handler does, in order: calls on the `http.ResponseWriter` (through `net/http`,
the templates and `httpranger`) and calls of the backend and of DNS.
`httpError text code` is `http.Error(w, text, code)`, which sends `text` and a newline as a
plain-text body; `redirect url code` is `http.Redirect(w, r, url, code)`. -/
inductive Event where
  | httpError (text : Str) (code : Nat)
  | redirect (url : Str) (code : Nat)
  | writeHeader (code : Nat)
  | setHeader (key value : Str)
  | executeTemplate (name : Str) (data : TemplateData)
  | serveContent (name : Str) (modtime : Int) (ranger : ObjectRanger)
  | openProject
  | closeProject
  | statObject (bucket key : Str)
  | listObjects (bucket pfx : Str)
  | getObjectIPs (bucket key : Str)
  | getIPInfos (ip : Str)
  | lookupTXT (hostname : Str)
  deriving DecidableEq, Repr

/-- The capabilities the handler consumes: the `uplink` library, the IP database, the
templates, DNS, and the standard-library calls that are not written out. `listObjects`
gives the items of the drained iterator and its `Err()`. -/
structure Env (Access Project : Type) where
  parseAccess : Str → Except Error Access
  openProject : Access → Except Error Project
  statObject : Project → Str → Str → Except Error Object
  listObjects : Project → Str → Str → List Object × Option Error
  getObjectIPs : Access → Str → Str → Except Error (List Str)
  getIPInfos : Str → Except Error Location
  executeTemplate : Str → TemplateData → Option Error
  base10String : Int → Str
  lookupTXT : Str → Except Error (List Str)
  urlParse : Str → Except Error URL
  pathJoin : Str → Str → Str
  urlString : URL → Str

/-- Go `Handler`: the base URL and the TXT record cache (logger, templates and mapper are
part of the environment). -/
structure Handler (Access : Type) where
  urlBase : URL
  txtRecords : TxtRecords Access
  deriving DecidableEq, Repr

/-- What a handler function leaves behind: its events and the error it returns. -/
abbrev Served := List Event × Outcome Unit

/-! ## The handler -/

/-- Go `parseURLBase(s)`; `urlParse` is `url.Parse`. -/
def parseURLBase (urlParse : Str → Except Error URL) (s : Str) : Except Error URL :=
  match urlParse s with
  | Except.error err => Except.error err
  | Except.ok u =>
    if u.scheme ≠ "http".toList ∧ u.scheme ≠ "https".toList then
      Except.error (errorsNew "URL base must be http:// or https://".toList)
    else if u.host = [] then Except.error (errorsNew "URL base must contain host".toList)
    else if u.user ≠ none then
      Except.error (errorsNew "URL base must not contain user info".toList)
    else if u.rawQuery ≠ [] then
      Except.error (errorsNew "URL base must not contain query values".toList)
    else if u.fragment ≠ [] then
      Except.error (errorsNew "URL base must not contain a fragment".toList)
    else Except.ok u

/-- Go `makeLocation(base, reqPath)`. -/
def makeLocation {Access Project : Type} (env : Env Access Project) (base : URL)
    (reqPath : Str) : Str :=
  env.urlString { base with path := env.pathJoin base.path reqPath }

/-- Go `Handler.handleUplinkErr(w, action, err)`; `action` is only logged. -/
def handleUplinkErr (_action : Str) (err : Error) : List Event :=
  match err.kind with
  | ErrKind.bucketNotFound =>
    [Event.writeHeader 404,
     Event.executeTemplate "404.html".toList (TemplateData.message "Oops! Bucket not found.".toList)]
  | ErrKind.objectNotFound =>
    [Event.writeHeader 404,
     Event.executeTemplate "404.html".toList (TemplateData.message "Oops! Object not found.".toList)]
  | ErrKind.other => [Event.httpError "unable to handle request".toList 500]

/-- The breadcrumb loop of `servePrefix` over the indexed components of the trimmed
prefix; `none` is an index out of range at `input.Breadcrumbs[i]`. -/
def appendBreadcrumbs : List (Nat × Str) → List Breadcrumb → Option (List Breadcrumb)
  | [], crumbs => some crumbs
  | (i, p) :: rest, crumbs =>
    match crumbs[i]? with
    | none => none
    | some prev => appendBreadcrumbs rest (crumbs ++ [⟨p, prev.URL ++ '/' :: p ++ ['/']⟩])

/-- The breadcrumbs `servePrefix` builds. -/
def breadcrumbs (serializedAccess bucket pfx : Str) : Option (List Breadcrumb) :=
  let first : Breadcrumb := ⟨bucket, serializedAccess ++ '/' :: bucket ++ ['/']⟩
  if pfx ≠ [] then appendBreadcrumbs (split '/' (trimRight pfx '/')).enum [first]
  else some [first]

/-- The item loop of `servePrefix`; `none` is a slice out of range at
`item.Key[len(prefix):]`. -/
def listItems (base10String : Int → Str) (pfx : Str) : List Object → Option (List Item)
  | [] => some []
  | item :: rest =>
    if item.Key.length < pfx.length then none
    else
      match listItems base10String pfx rest with
      | none => none
      | some items =>
        some (⟨item.Key.drop pfx.length, base10String item.ContentLength, item.IsPrefix⟩ :: items)

/-- Go `Handler.servePrefix(ctx, w, project, serializedAccess, bucket, prefix)`. -/
def servePrefix {Access Project : Type} (env : Env Access Project) (project : Project)
    (serializedAccess bucket pfx : Str) : Served :=
  match breadcrumbs serializedAccess bucket pfx with
  | none => ([], Outcome.panic)
  | some crumbs =>
    match listItems env.base10String pfx (env.listObjects project bucket pfx).1 with
    | none => ([Event.listObjects bucket pfx], Outcome.panic)
    | some items =>
      match (env.listObjects project bucket pfx).2 with
      | some err => ([Event.listObjects bucket pfx], Outcome.fail err)
      | none =>
        ([Event.listObjects bucket pfx,
          Event.executeTemplate "prefix-listing.html".toList
            (TemplateData.listing bucket crumbs items)],
         match env.executeTemplate "prefix-listing.html".toList
            (TemplateData.listing bucket crumbs items) with
         | some err => Outcome.fail err
         | none => Outcome.ok ())

/-- The loop of `handleTraditional` over the object's node addresses: an address
whose lookup fails is skipped. -/
def lookupLocations (getIPInfos : Str → Except Error Location) : List Str → List Location
  | [] => []
  | ip :: rest =>
    match getIPInfos ip with
    | Except.error _ => lookupLocations getIPInfos rest
    | Except.ok info => ⟨info.Latitude, info.Longitude⟩ :: lookupLocations getIPInfos rest

/-- The part of `handleTraditional` that runs between opening the project and the
deferred `p.Close()`. -/
def handleOpened {Access Project : Type} (env : Env Access Project) (urlBase : URL)
    (r : Request) (locationOnly : Bool) (p : Project) (rp : RequestPath Access) : Served :=
  if rp.key = [] ∨ hasSuffix rp.key "/".toList then
    if !hasSuffix r.path "/".toList then
      ([Event.redirect (r.path ++ "/".toList) 301], Outcome.ok ())
    else
      match servePrefix env p rp.serializedAccess rp.bucket rp.key with
      | (events, Outcome.fail err) =>
        (events ++ handleUplinkErr "list prefix".toList err, Outcome.ok ())
      | (events, Outcome.panic) => (events, Outcome.panic)
      | (events, Outcome.ok ()) => (events, Outcome.ok ())
  else
    match env.statObject p rp.bucket rp.key with
    | Except.error err =>
      (Event.statObject rp.bucket rp.key :: handleUplinkErr "stat object".toList err,
       Outcome.fail err)
    | Except.ok o =>
      if locationOnly then
        ([Event.statObject rp.bucket rp.key,
          Event.redirect (makeLocation env urlBase r.path) 302], Outcome.ok ())
      else
        let download := decide ("download".toList ∈ r.query)
        let view := decide ("view".toList ∈ r.query)
        if !download && !view && !rp.rawRequest then
          match env.getObjectIPs rp.access rp.bucket rp.key with
          | Except.error err =>
            (Event.statObject rp.bucket rp.key :: Event.getObjectIPs rp.bucket rp.key ::
               handleUplinkErr "get object IPs".toList err, Outcome.fail err)
          | Except.ok ipBytes =>
            let locations := lookupLocations env.getIPInfos ipBytes
            let input := TemplateData.singleObject o.Key (env.base10String o.ContentLength)
              locations (locations.length : Int)
            (Event.statObject rp.bucket rp.key :: Event.getObjectIPs rp.bucket rp.key ::
               (ipBytes.map Event.getIPInfos ++
                 [Event.executeTemplate "single-object.html".toList input]),
             match env.executeTemplate "single-object.html".toList input with
             | some err => Outcome.fail err
             | none => Outcome.ok ())
        else if download then
          match (split '/' rp.key).getLast? with
          | none => ([Event.statObject rp.bucket rp.key], Outcome.panic)
          | some obj =>
            ([Event.statObject rp.bucket rp.key,
              Event.setHeader "Content-Disposition".toList
                ("attachment; filename=".toList ++ dquote :: obj ++ [dquote]),
              Event.serveContent rp.key o.Created ⟨o, rp.bucket⟩], Outcome.ok ())
        else
          ([Event.statObject rp.bucket rp.key,
            Event.serveContent rp.key o.Created ⟨o, rp.bucket⟩], Outcome.ok ())

/-- Go `Handler.handleTraditional(ctx, w, r, locationOnly)`. -/
def handleTraditional {Access Project : Type} (env : Env Access Project) (urlBase : URL)
    (r : Request) (locationOnly : Bool) : Served :=
  match parseRequestPath env.parseAccess r.path with
  | Outcome.panic => ([], Outcome.panic)
  | Outcome.fail err =>
    ([Event.httpError ("invalid request: ".toList ++ err.msg) 400],
     Outcome.fail (errorsNew ("invalid request: ".toList ++ err.msg)))
  | Outcome.ok rp =>
    match env.openProject rp.access with
    | Except.error err =>
      (Event.openProject :: handleUplinkErr "open project".toList err, Outcome.fail err)
    | Except.ok p =>
      (Event.openProject :: (handleOpened env urlBase r locationOnly p rp).1 ++
         [Event.closeProject],
       (handleOpened env urlBase r locationOnly p rp).2)

/-- Go `getRemoteRecord(hostname)`. -/
def getRemoteRecord {Access Project : Type} (env : Env Access Project) (hostname : Str) :
    List Event × Outcome (Access × Str) :=
  match env.lookupTXT hostname with
  | Except.error err => ([Event.lookupTXT hostname], Outcome.fail err)
  | Except.ok records => ([Event.lookupTXT hostname], parseRecords env.parseAccess records)

/-- Go `Handler.getRootAndAccess(hostname)`: the cache afterwards, the events, and access
and root. `now` is the clock read by `checkCache`, `later` the one read by `updateCache`. -/
def getRootAndAccess {Access Project : Type} (env : Env Access Project)
    (t : TxtRecords Access) (now later : Int) (hostname : Str) :
    TxtRecords Access × List Event × Outcome (Access × Str) :=
  match checkCache t now hostname with
  | (some record, true) => (t, [], Outcome.ok (record.access, record.root))
  | _ =>
    match getRemoteRecord env hostname with
    | (events, Outcome.ok (access, root)) =>
      (updateCache t later hostname root access, events, Outcome.ok (access, root))
    | (events, Outcome.fail err) => (t, events, Outcome.fail err)
    | (events, Outcome.panic) => (t, events, Outcome.panic)

/-- The part of `handleHostingService` that runs between opening the project and the
deferred `project.Close()`. -/
def serveHosted {Access Project : Type} (env : Env Access Project) (r : Request)
    (project : Project) (root : Str) : Served :=
  let rootPath := splitN '/' 2 root
  match rootPath[0]? with
  | none => ([], Outcome.panic)
  | some bucket =>
    let pt := trimPrefix r.path "/".toList
    let pt := if rootPath.length = 2 then
        match rootPath[1]? with
        | some pathPrefix => pathPrefix ++ "/".toList ++ pt
        | none => pt
      else pt
    let pt := if pt = [] then "index.html".toList else pt
    match env.statObject project bucket pt with
    | Except.error err =>
      (Event.statObject bucket pt :: handleUplinkErr "stat object".toList err, Outcome.fail err)
    | Except.ok o =>
      ([Event.statObject bucket pt, Event.serveContent pt o.Created ⟨o, bucket⟩], Outcome.ok ())

/-- Go `Handler.handleHostingService(ctx, w, r)`, with the cache it leaves behind. -/
def handleHostingService {Access Project : Type} (env : Env Access Project)
    (handler : Handler Access) (now later : Int) (r : Request) : Handler Access × Served :=
  match splitHostPort r.host with
  | Except.error err =>
    (handler, [Event.httpError "unable to handle request".toList 500], Outcome.fail err)
  | Except.ok (host, _) =>
    match getRootAndAccess env handler.txtRecords now later host with
    | (t, events, Outcome.panic) => ({ handler with txtRecords := t }, events, Outcome.panic)
    | (t, events, Outcome.fail err) =>
      ({ handler with txtRecords := t },
       events ++ [Event.httpError "unable to handle request".toList 500], Outcome.fail err)
    | (t, events, Outcome.ok (access, root)) =>
      match env.openProject access with
      | Except.error err =>
        ({ handler with txtRecords := t },
         events ++ Event.openProject :: handleUplinkErr "open project".toList err,
         Outcome.fail err)
      | Except.ok project =>
        ({ handler with txtRecords := t },
         events ++ Event.openProject :: (serveHosted env r project root).1 ++
           [Event.closeProject],
         (serveHosted env r project root).2)

/-- Go `Handler.serveHTTP(w, r)`, with the cache it leaves behind. -/
def serveHTTP {Access Project : Type} (env : Env Access Project) (handler : Handler Access)
    (now later : Int) (r : Request) : Handler Access × Served :=
  match splitHostPort handler.urlBase.host with
  | Except.error err => (handler, [], Outcome.fail err)
  | Except.ok (serverHost, _) =>
    if r.host ≠ serverHost then handleHostingService env handler now later r
    else if r.method = "HEAD".toList then
      (handler, handleTraditional env handler.urlBase r true)
    else if r.method = "GET".toList then
      (handler, handleTraditional env handler.urlBase r false)
    else
      (handler, [Event.httpError "method not allowed".toList 405],
       Outcome.fail (errorsNew "method not allowed".toList))

/-- Go `NewHandler(log, mapper, config)` for a configuration whose templates parse: the
handler starts with an empty cache. -/
def NewHandler {Access : Type} (urlParse : Str → Except Error URL) (URLBase : Str)
    (TxtRecordTTL : Int) : Except Error (Handler Access) :=
  match parseURLBase urlParse URLBase with
  | Except.error err => Except.error err
  | Except.ok urlBase => Except.ok ⟨urlBase, ⟨GoMap.empty, TxtRecordTTL⟩⟩

/-! ## A sample environment -/

/-- An `uplink.ParseAccess` that accepts exactly the text `cred`. -/
def sampleParseAccess (s : Str) : Except Error Str :=
  if s = "cred".toList then Except.ok s
  else Except.error ⟨ErrKind.other, "uplink: invalid access grant format".toList⟩

/-- An `url.Parse` that knows the two base URLs `http://host:99` and `http://localhost`. -/
def sampleUrlParse (s : Str) : Except Error URL :=
  if s = "http://host:99".toList then Except.ok ⟨"http".toList, none, "host:99".toList, [], [], []⟩
  else if s = "http://localhost".toList then
    Except.ok ⟨"http".toList, none, "localhost".toList, [], [], []⟩
  else Except.error ⟨ErrKind.other, "parse: unknown URL".toList⟩

/-- An environment in which `cred` is the one valid access grant, every project opens,
the bucket holds no objects, and no hostname has TXT records. -/
def sampleEnv : Env Str Unit where
  parseAccess := sampleParseAccess
  openProject := fun _ => Except.ok ()
  statObject := fun _ _ _ => Except.error ⟨ErrKind.objectNotFound, "uplink: object not found".toList⟩
  listObjects := fun _ _ _ => ([], none)
  getObjectIPs := fun _ _ _ => Except.ok []
  getIPInfos := fun _ => Except.error ⟨ErrKind.other, "no info".toList⟩
  executeTemplate := fun _ _ => none
  base10String := fun _ => []
  lookupTXT := fun _ => Except.error ⟨ErrKind.other, "lookup: no such host".toList⟩
  urlParse := sampleUrlParse
  pathJoin := fun a b => a ++ b
  urlString := fun u => u.scheme ++ "://".toList ++ u.host ++ u.path

/-- The base URL `http://host:99`, as `url.Parse` returns it. -/
def sampleBase : URL := ⟨"http".toList, none, "host:99".toList, [], [], []⟩

/-- A handler with the base URL `http://host:99` and an empty cache. -/
def sampleHandler : Handler Str := ⟨sampleBase, ⟨GoMap.empty, 0⟩⟩

/-! ## TXT records as the hosting-mode DNS contract writes them -/

/-- The TXT record `storj_grant-N:fragment`, with `N` in decimal. -/
def grantRecord (n : Nat) (fragment : Str) : Str :=
  "storj_grant-".toList ++ (Nat.repr n).toList ++ ':' :: fragment

/-- The TXT record `storj_root:root`. -/
def rootRecord (root : Str) : Str := "storj_root:".toList ++ root

/-- The records `storj_grant-k:f`, `storj_grant-(k+1):f'`, ... for a list of fragments. -/
def grantRecordsFrom : Nat → List Str → List Str
  | _, [] => []
  | k, f :: fs => grantRecord k f :: grantRecordsFrom (k + 1) fs

/-- The key of a TXT record: the text before its first `:` (all of it without a `:`). -/
def recordKey (record : Str) : Str := record.takeWhile (fun c => c != ':')

/-- A TXT record by its role: a grant fragment with its index, the root, or another
record (any text). -/
inductive TxtEntry where
  | grant (index : Nat) (fragment : Str)
  | root (path : Str)
  | other (text : Str)
  deriving DecidableEq, Repr

/-- The TXT string of an entry. -/
def TxtEntry.render : TxtEntry → Str
  | TxtEntry.grant n f => grantRecord n f
  | TxtEntry.root p => rootRecord p
  | TxtEntry.other t => t

/-- A grant index fits a Go `int`; the key of another record neither begins with
`storj_grant` nor is `storj_root`. -/
def TxtEntry.WellFormed : TxtEntry → Prop
  | TxtEntry.grant n _ => n < 2 ^ 63
  | TxtEntry.root _ => True
  | TxtEntry.other t =>
    hasPrefix (recordKey t) "storj_grant".toList = false ∧ recordKey t ≠ "storj_root".toList

/-- What an entry does to the state `(grants, root)` of the record loop. -/
def applyEntry (st : GoMap Int Str × Str) : TxtEntry → GoMap Int Str × Str
  | TxtEntry.grant n f => (st.1.set (n : Int) f, st.2)
  | TxtEntry.root p => (st.1, p)
  | TxtEntry.other _ => st

/-- The entries `storj_grant-k:f`, `storj_grant-(k+1):f'`, ... for a list of fragments. -/
def grantEntriesFrom : Nat → List Str → List TxtEntry
  | _, [] => []
  | k, f :: fs => TxtEntry.grant k f :: grantEntriesFrom (k + 1) fs

/-- The keys of a Go map. -/
def GoMap.keys {κ ν : Type} (m : GoMap κ ν) : List κ := m.entries.map Prod.fst

/-- An `uplink.ParseAccess` that accepts every text and returns it, to show which text
is deserialized. -/
def keepSerialized (s : Str) : Except Error Str := Except.ok s

/-! ## Sample cache, objects and listings -/

/-- A cache with the time-to-live 10 that holds, resolved at time 0, the credential
`old` and the root `site` for `a.example` and the credential `cred` and the root
`bucket1/folder1` for `b.example`. -/
def sampleCache : TxtRecords Str :=
  ⟨⟨[("a.example".toList, ⟨"old".toList, "site".toList, 0⟩),
      ("b.example".toList, ⟨"cred".toList, "bucket1/folder1".toList, 0⟩)]⟩, 10⟩

/-- The object `test/foo` of three bytes. -/
def sampleObject : Object := ⟨"test/foo".toList, false, 3, 0⟩

/-- The sample environment with the object `test/foo` in every bucket. -/
def sampleEnvFoo : Env Str Unit :=
  { sampleEnv with
    statObject := fun _ _ key =>
      if key = "test/foo".toList then Except.ok sampleObject
      else Except.error ⟨ErrKind.objectNotFound, "uplink: object not found".toList⟩ }

/-- The base URL `http://localhost`, as `url.Parse` returns it. -/
def localBase : URL := ⟨"http".toList, none, "localhost".toList, [], [], []⟩

/-- A handler with the base URL `http://localhost` and an empty cache. -/
def localHandler : Handler Str := ⟨localBase, ⟨GoMap.empty, 0⟩⟩

/-- A listing prefix written from its components: each component followed by `/`. -/
def dirPrefix : List Str → Str
  | [] => []
  | x :: xs => x ++ '/' :: dirPrefix xs

/-- The components joined by `/`, without a trailing `/`. -/
def joinSlash : List Str → Str
  | [] => []
  | [x] => x
  | x :: y :: rest => x ++ '/' :: joinSlash (y :: rest)

/-- The breadcrumbs that follow a breadcrumb with the URL `url`, one for each component:
the URL of each is the URL before it, `/`, the component and `/`. -/
def crumbsAfter (url : Str) : List Str → List Breadcrumb
  | [] => []
  | x :: xs => ⟨x, url ++ '/' :: x ++ ['/']⟩ :: crumbsAfter (url ++ '/' :: x ++ ['/']) xs

/-- The part of a key after its last `/`, the whole key if it has none. -/
def afterLastSlash (key : Str) : Str :=
  (key.reverse.takeWhile (fun c => c != '/')).reverse

/-- The URL of the breadcrumb `x` is a proper prefix of the URL of the breadcrumb `y`. -/
def ProperPrefixURL (x y : Breadcrumb) : Prop := x.URL <+: y.URL ∧ x.URL ≠ y.URL

/-! ## Facts about the string functions -/

theorem slash_toList : "/".toList = ['/'] := rfl

theorem cut_append_sep (sep : Char) (a b : Str) (ha : sep ∉ a) :
    cut sep (a ++ sep :: b) = some (a, b) := by
  induction a with
  | nil => simp [cut]
  | cons c cs ih =>
    have hc : c ≠ sep := fun h => ha (by simp [h])
    have hcs : sep ∉ cs := fun h => ha (by simp [h])
    simp [cut, hc, ih hcs]

theorem cut_eq_none (sep : Char) (s : Str) (hs : sep ∉ s) : cut sep s = none := by
  induction s with
  | nil => rfl
  | cons c cs ih =>
    have hc : c ≠ sep := fun h => hs (by simp [h])
    have hcs : sep ∉ cs := fun h => hs (by simp [h])
    simp [cut, hc, ih hcs]

theorem cut_some (sep : Char) (s a b : Str) (h : cut sep s = some (a, b)) :
    s = a ++ sep :: b ∧ sep ∉ a := by
  induction s generalizing a with
  | nil => simp [cut] at h
  | cons c cs ih =>
    unfold cut at h
    by_cases hc : c = sep
    · simp [hc] at h
      obtain ⟨rfl, rfl⟩ := h
      simp [hc]
    · simp only [hc, if_false] at h
      cases hcut : cut sep cs with
      | none => simp [hcut] at h
      | some q =>
        obtain ⟨a1, b1⟩ := q
        simp only [hcut, Option.some.injEq, Prod.mk.injEq] at h
        obtain ⟨rfl, rfl⟩ := h
        obtain ⟨h1, h2⟩ := ih a1 hcut
        refine ⟨by rw [h1]; simp, ?_⟩
        intro hmem
        rcases List.mem_cons.mp hmem with h3 | h3
        · exact hc h3.symm
        · exact h2 h3

theorem cut_none (sep : Char) (s : Str) (h : cut sep s = none) : sep ∉ s := by
  induction s with
  | nil => simp
  | cons c cs ih =>
    unfold cut at h
    by_cases hc : c = sep
    · simp [hc] at h
    · simp only [hc, if_false] at h
      cases hcut : cut sep cs with
      | none =>
        intro hmem
        rcases List.mem_cons.mp hmem with h3 | h3
        · exact hc h3.symm
        · exact ih hcut h3
      | some q => simp [hcut] at h

theorem trimPrefix_slash_cons (s : Str) : trimPrefix ('/' :: s) "/".toList = s := by
  simp [trimPrefix, hasPrefix, slash_toList]

theorem splitN_two_of_not_mem (sep : Char) (n : Nat) (s : Str) (hs : sep ∉ s) :
    splitN sep (n + 1) s = [s] := by
  cases n with
  | zero => rfl
  | succ n => simp [splitN, cut_eq_none sep s hs]

theorem splitN_append_sep (sep : Char) (n : Nat) (a b : Str) (ha : sep ∉ a) :
    splitN sep (n + 2) (a ++ sep :: b) = a :: splitN sep (n + 1) b := by
  simp [splitN, cut_append_sep sep a b ha]

/-- The last of at most two further pieces of `k`, glued back together, is `k`. -/
theorem splitN_two_glue (sep : Char) (k : Str) :
    splitN sep 2 k = [k] ∨ ∃ k1 k2, splitN sep 2 k = [k1, k2] ∧ k = k1 ++ sep :: k2 := by
  cases hcut : cut sep k with
  | none => left; simp [splitN, hcut]
  | some q =>
    obtain ⟨k1, k2⟩ := q
    right
    exact ⟨k1, k2, by simp [splitN, hcut], (cut_some sep k k1 k2 hcut).1⟩

/-! ## The path parser: keys keep their separators -/

theorem splitN_four_path (a b k : Str) (ha : '/' ∉ a) (hb : '/' ∉ b) :
    splitN '/' 4 (a ++ '/' :: (b ++ '/' :: k)) = a :: b :: splitN '/' 2 k := by
  rw [splitN_append_sep '/' 2 a _ ha, splitN_append_sep '/' 1 b _ hb]

/-- C2: for a path `/a/b/k` with no `/` in `a` and `b`, `a` not the marker `raw` and `a` a
valid credential, `parseRequestPath` succeeds with `raw = false`, the serialized
credential `a`, the bucket `b` and the key `k`, whatever separators `k` holds. -/
theorem parseRequestPath_key_is_remainder {Access : Type}
    (parseAccess : Str → Except Error Access) (a b k : Str) (access : Access)
    (ha : '/' ∉ a) (hb : '/' ∉ b) (hraw : a ≠ "raw".toList)
    (hacc : parseAccess a = Except.ok access) :
    parseRequestPath parseAccess ("/".toList ++ a ++ "/".toList ++ b ++ "/".toList ++ k)
      = Outcome.ok ⟨false, access, a, b, k⟩ := by
  have hp : "/".toList ++ a ++ "/".toList ++ b ++ "/".toList ++ k
      = '/' :: (a ++ '/' :: (b ++ '/' :: k)) := by simp [slash_toList]
  rw [hp]
  unfold parseRequestPath
  rw [trimPrefix_slash_cons]
  dsimp only
  rw [splitN_four_path a b k ha hb]
  rcases splitN_two_glue '/' k with h | ⟨k1, k2, h, hk⟩
  · rw [h]
    simp [collapseSegments, hacc]
  · have hraw1 : a ≠ ['r', 'a', 'w'] := hraw
    rw [h]
    simp [collapseSegments, hraw1, hacc, hk]

theorem parseRequestPath_key_is_remainder_witness :
    parseRequestPath sampleParseAccess
        ("/".toList ++ "cred".toList ++ "/".toList ++ "b".toList ++ "/".toList ++ "k/l/".toList)
      = Outcome.ok ⟨false, "cred".toList, "cred".toList, "b".toList, "k/l/".toList⟩ :=
  parseRequestPath_key_is_remainder sampleParseAccess "cred".toList "b".toList "k/l/".toList
    "cred".toList (by decide) (by decide) (by decide) (by decide)

/-- C3: for a path `/raw/a/b/k` with no `/` in `a` and `b` and `a` a valid credential,
`parseRequestPath` succeeds with `raw = true`, the serialized credential `a`, the bucket
`b` and the key `k`, whatever separators `k` holds. -/
theorem parseRequestPath_raw {Access : Type}
    (parseAccess : Str → Except Error Access) (a b k : Str) (access : Access)
    (ha : '/' ∉ a) (hb : '/' ∉ b) (hacc : parseAccess a = Except.ok access) :
    parseRequestPath parseAccess ("/raw/".toList ++ a ++ "/".toList ++ b ++ "/".toList ++ k)
      = Outcome.ok ⟨true, access, a, b, k⟩ := by
  have hp : "/raw/".toList ++ a ++ "/".toList ++ b ++ "/".toList ++ k
      = '/' :: ("raw".toList ++ '/' :: (a ++ '/' :: (b ++ '/' :: k))) := by
    have h1 : "/raw/".toList = '/' :: ("raw".toList ++ ['/']) := rfl
    simp [slash_toList, h1]
  rw [hp]
  unfold parseRequestPath
  rw [trimPrefix_slash_cons]
  dsimp only
  rw [splitN_append_sep '/' 2 "raw".toList _ (by decide),
    splitN_append_sep '/' 1 a _ ha, splitN_append_sep '/' 0 b _ hb]
  simp [splitN, collapseSegments, hacc]

theorem parseRequestPath_raw_witness :
    parseRequestPath sampleParseAccess
        ("/raw/".toList ++ "cred".toList ++ "/".toList ++ "b".toList ++ "/".toList ++ "k/l/".toList)
      = Outcome.ok ⟨true, "cred".toList, "cred".toList, "b".toList, "k/l/".toList⟩ :=
  parseRequestPath_raw sampleParseAccess "cred".toList "b".toList "k/l/".toList
    "cred".toList (by decide) (by decide) (by decide)

/-! ## The path parser: the shape of a parsed path -/

theorem hasSuffix_slash_false (x b : Str) (hne : b ≠ []) (hb : '/' ∉ b) :
    hasSuffix (x ++ b) "/".toList = false := by
  rw [slash_toList]
  by_contra hcon
  have hsuf : ['/'] <:+ (x ++ b) := by
    have h1 : hasSuffix (x ++ b) ['/'] = true := by simpa using hcon
    exact List.isSuffixOf_iff_suffix.mp h1
  obtain ⟨t, ht⟩ := hsuf
  have h2 := congrArg List.getLast? ht
  rw [List.getLast?_concat, List.getLast?_append, List.getLast?_eq_getLast b hne] at h2
  simp only [Option.or_some, Option.some.injEq] at h2
  exact hb (h2 ▸ List.getLast_mem hne)

/-- The four shapes `strings.SplitN(q, "/", 4)` can have. -/
theorem splitN_four_cases (q : Str) :
    (splitN '/' 4 q = [q] ∧ '/' ∉ q) ∨
    (∃ a b, splitN '/' 4 q = [a, b] ∧ q = a ++ '/' :: b ∧ '/' ∉ a ∧ '/' ∉ b) ∨
    (∃ a b c, splitN '/' 4 q = [a, b, c] ∧ q = a ++ '/' :: (b ++ '/' :: c) ∧
      '/' ∉ a ∧ '/' ∉ b ∧ '/' ∉ c) ∨
    (∃ a b c d, splitN '/' 4 q = [a, b, c, d] ∧
      q = a ++ '/' :: (b ++ '/' :: (c ++ '/' :: d)) ∧ '/' ∉ a ∧ '/' ∉ b ∧ '/' ∉ c) := by
  cases h1 : cut '/' q with
  | none => left; exact ⟨by simp [splitN, h1], cut_none '/' q h1⟩
  | some q1 =>
    obtain ⟨a, r1⟩ := q1
    obtain ⟨e1, n1⟩ := cut_some '/' q a r1 h1
    right
    cases h2 : cut '/' r1 with
    | none => left; exact ⟨a, r1, by simp [splitN, h1, h2], e1, n1, cut_none '/' r1 h2⟩
    | some q2 =>
      obtain ⟨b, r2⟩ := q2
      obtain ⟨e2, n2⟩ := cut_some '/' r1 b r2 h2
      right
      cases h3 : cut '/' r2 with
      | none =>
        left
        exact ⟨a, b, r2, by simp [splitN, h1, h2, h3], by rw [e1, e2], n1, n2,
          cut_none '/' r2 h3⟩
      | some q3 =>
        obtain ⟨c, r3⟩ := q3
        obtain ⟨e3, n3⟩ := cut_some '/' r2 c r3 h3
        right
        exact ⟨a, b, c, r3, by simp [splitN, h1, h2, h3], by rw [e1, e2, e3], n1, n2, n3⟩

/-- A path `/c/b` parses to the credential `c`, the bucket `b` and an empty key. -/
theorem parseRequestPath_no_key {Access : Type} (parseAccess : Str → Except Error Access)
    (c b : Str) (access : Access) (hc : '/' ∉ c) (hb : '/' ∉ b)
    (hacc : parseAccess c = Except.ok access) :
    parseRequestPath parseAccess ("/".toList ++ c ++ "/".toList ++ b)
      = Outcome.ok ⟨false, access, c, b, []⟩ := by
  have hp : "/".toList ++ c ++ "/".toList ++ b = '/' :: (c ++ '/' :: b) := by
    simp [slash_toList]
  rw [hp]
  unfold parseRequestPath
  rw [trimPrefix_slash_cons]
  dsimp only
  rw [splitN_append_sep '/' 2 c _ hc, splitN_two_of_not_mem '/' 2 b hb]
  simp [collapseSegments, hacc]

/-- C6 fails as stated: the path `/cred/` parses, and its bucket is the empty string. -/
theorem parseRequestPath_empty_bucket :
    ∃ rp, parseRequestPath sampleParseAccess "/cred/".toList = Outcome.ok rp ∧ rp.bucket = [] :=
  ⟨⟨false, "cred".toList, "cred".toList, [], []⟩, by decide, rfl⟩

/-- C6, amended: when `parseRequestPath` succeeds, the bucket is the path segment that
follows the serialized credential. The path without its leading `/` is the marker `raw/`
(for a raw request), the credential, `/` and the bucket, followed either by nothing or by
`/` and the key; the bucket holds no `/`, and is empty when that segment is empty. -/
theorem parseRequestPath_bucket_segment {Access : Type}
    (parseAccess : Str → Except Error Access) (p : Str) (rp : RequestPath Access)
    (h : parseRequestPath parseAccess p = Outcome.ok rp) :
    '/' ∉ rp.bucket ∧
    (trimPrefix p "/".toList
        = (if rp.rawRequest then "raw/".toList else []) ++ rp.serializedAccess ++ "/".toList
            ++ rp.bucket
      ∨ trimPrefix p "/".toList
        = (if rp.rawRequest then "raw/".toList else []) ++ rp.serializedAccess ++ "/".toList
            ++ rp.bucket ++ "/".toList ++ rp.key) := by
  unfold parseRequestPath at h
  dsimp only at h
  rcases splitN_four_cases (trimPrefix p "/".toList) with
    ⟨h1, _⟩ | ⟨a, b, h1, e, _, nb⟩ | ⟨a, b, c, h1, e, _, nb, _⟩ | ⟨a, b, c, d, h1, e, _, nb, nc⟩
  · rw [h1] at h
    simp only [collapseSegments] at h
    split at h <;> simp at h
  · rw [h1] at h
    simp only [collapseSegments] at h
    cases hacc : parseAccess a with
    | error err => simp [hacc] at h
    | ok access =>
      simp only [hacc, Outcome.ok.injEq] at h
      subst h
      exact ⟨nb, Or.inl (by rw [e]; simp [slash_toList])⟩
  · rw [h1] at h
    simp only [collapseSegments] at h
    cases hacc : parseAccess a with
    | error err => simp [hacc] at h
    | ok access =>
      simp only [hacc, Outcome.ok.injEq] at h
      subst h
      exact ⟨nb, Or.inr (by rw [e]; simp [slash_toList])⟩
  · rw [h1] at h
    simp only [collapseSegments] at h
    by_cases hr : a = "raw".toList
    · simp only [hr, if_true] at h
      cases hacc : parseAccess b with
      | error err => simp [hacc] at h
      | ok access =>
        simp only [hacc, Outcome.ok.injEq] at h
        subst h
        exact ⟨nc, Or.inr (by rw [e, hr]; simp [slash_toList])⟩
    · simp only [hr, if_false] at h
      cases hacc : parseAccess a with
      | error err => simp [hacc] at h
      | ok access =>
        simp only [hacc, Outcome.ok.injEq] at h
        subst h
        exact ⟨nb, Or.inr (by rw [e]; simp [slash_toList])⟩

theorem parseRequestPath_bucket_segment_witness :
    '/' ∉ ([] : Str) ∧
    (trimPrefix "/cred/".toList "/".toList
        = (if false then "raw/".toList else []) ++ "cred".toList ++ "/".toList ++ []
      ∨ trimPrefix "/cred/".toList "/".toList
        = (if false then "raw/".toList else []) ++ "cred".toList ++ "/".toList ++ []
            ++ "/".toList ++ []) :=
  parseRequestPath_bucket_segment sampleParseAccess "/cred/".toList
    ⟨false, "cred".toList, "cred".toList, [], []⟩ (by decide)

/-! ## Traditional mode -/

/-- C7: a path without `/` after its leading `/` is stripped makes `parseRequestPath` fail,
with `missing access` when nothing is left and `missing bucket` otherwise, and
`handleTraditional` answers 400 with `invalid request: ` and that error; the only event is
this answer, so no project is opened. -/
theorem handleTraditional_single_segment {Access Project : Type} (env : Env Access Project)
    (urlBase : URL) (r : Request) (locationOnly : Bool)
    (h : '/' ∉ trimPrefix r.path "/".toList) :
    parseRequestPath env.parseAccess r.path
      = Outcome.fail (errorsNew (if trimPrefix r.path "/".toList = [] then "missing access".toList
          else "missing bucket".toList)) ∧
    handleTraditional env urlBase r locationOnly
      = ([Event.httpError ("invalid request: ".toList ++
            (if trimPrefix r.path "/".toList = [] then "missing access".toList
              else "missing bucket".toList)) 400],
         Outcome.fail (errorsNew ("invalid request: ".toList ++
            (if trimPrefix r.path "/".toList = [] then "missing access".toList
              else "missing bucket".toList)))) := by
  have hparse : parseRequestPath env.parseAccess r.path
      = Outcome.fail (errorsNew (if trimPrefix r.path "/".toList = [] then "missing access".toList
          else "missing bucket".toList)) := by
    unfold parseRequestPath
    dsimp only
    rw [splitN_two_of_not_mem '/' 3 _ h]
    simp only [collapseSegments]
    by_cases he : trimPrefix r.path "/".toList = []
    · have he1 : trimPrefix r.path ['/'] = [] := he
      simp [he1]
    · have he1 : ¬ trimPrefix r.path ['/'] = [] := he
      simp [he1]
  refine ⟨hparse, ?_⟩
  unfold handleTraditional
  rw [hparse]
  rfl

theorem handleTraditional_single_segment_witness :
    parseRequestPath sampleEnv.parseAccess "/cred".toList
      = Outcome.fail (errorsNew (if trimPrefix "/cred".toList "/".toList = []
          then "missing access".toList else "missing bucket".toList)) ∧
    handleTraditional sampleEnv sampleBase ⟨"GET".toList, "host".toList, "/cred".toList, []⟩ false
      = ([Event.httpError ("invalid request: ".toList ++
            (if trimPrefix "/cred".toList "/".toList = [] then "missing access".toList
              else "missing bucket".toList)) 400],
         Outcome.fail (errorsNew ("invalid request: ".toList ++
            (if trimPrefix "/cred".toList "/".toList = [] then "missing access".toList
              else "missing bucket".toList)))) :=
  handleTraditional_single_segment sampleEnv sampleBase
    ⟨"GET".toList, "host".toList, "/cred".toList, []⟩ false (by decide)

/-- What `handleTraditional` does for a path `/c/b` with a valid credential once the
project is open: a redirect to the path with `/` appended. -/
theorem handleOpened_no_key {Access Project : Type} (env : Env Access Project)
    (urlBase : URL) (r : Request) (locationOnly : Bool) (project : Project) (c b : Str)
    (access : Access) (hb : '/' ∉ b) (hne : b ≠ [])
    (hpath : r.path = "/".toList ++ c ++ "/".toList ++ b) :
    handleOpened env urlBase r locationOnly project ⟨false, access, c, b, []⟩
      = ([Event.redirect (r.path ++ "/".toList) 301], Outcome.ok ()) := by
  have hs : hasSuffix r.path "/".toList = false := by
    rw [hpath]
    exact hasSuffix_slash_false _ b hne hb
  have hs1 : hasSuffix r.path ['/'] = false := hs
  unfold handleOpened
  simp [hs1]

/-- C4: a GET in traditional mode for a path `/c/b` (no `/` in `c` and `b`, `b` not
empty, so no key and no trailing `/`) with a valid credential whose project opens is
answered by a 301 redirect to the request path with `/` appended; the project is opened
and closed, and nothing is listed. -/
theorem handleTraditional_bucket_redirect {Access Project : Type} (env : Env Access Project)
    (urlBase : URL) (r : Request) (c b : Str) (access : Access) (project : Project)
    (hc : '/' ∉ c) (hb : '/' ∉ b) (hne : b ≠ [])
    (hpath : r.path = "/".toList ++ c ++ "/".toList ++ b)
    (hacc : env.parseAccess c = Except.ok access)
    (hopen : env.openProject access = Except.ok project) :
    handleTraditional env urlBase r false
      = ([Event.openProject, Event.redirect (r.path ++ "/".toList) 301, Event.closeProject],
         Outcome.ok ()) := by
  unfold handleTraditional
  rw [hpath, parseRequestPath_no_key env.parseAccess c b access hc hb hacc, ← hpath]
  simp only [hopen]
  rw [handleOpened_no_key env urlBase r false project c b access hb hne hpath]
  rfl

theorem handleTraditional_bucket_redirect_witness :
    handleTraditional sampleEnv sampleBase
        ⟨"GET".toList, "host".toList, "/cred/testbucket".toList, []⟩ false
      = ([Event.openProject, Event.redirect ("/cred/testbucket".toList ++ "/".toList) 301,
          Event.closeProject], Outcome.ok ()) :=
  handleTraditional_bucket_redirect sampleEnv sampleBase
    ⟨"GET".toList, "host".toList, "/cred/testbucket".toList, []⟩ "cred".toList
    "testbucket".toList "cred".toList () (by decide) (by decide) (by decide) (by decide)
    (by decide) rfl

/-- C5 fails as stated: for the valid credential `cred`, GET and HEAD on `/cred/testbucket`
are answered by a 301 redirect to `/cred/testbucket/`, not by status 400. -/
theorem handleTraditional_no_key_not_400 :
    handleTraditional sampleEnv sampleBase
        ⟨"GET".toList, "host".toList, "/cred/testbucket".toList, []⟩ false
      = ([Event.openProject, Event.redirect "/cred/testbucket/".toList 301, Event.closeProject],
         Outcome.ok ()) ∧
    handleTraditional sampleEnv sampleBase
        ⟨"HEAD".toList, "host".toList, "/cred/testbucket".toList, []⟩ true
      = ([Event.openProject, Event.redirect "/cred/testbucket/".toList 301, Event.closeProject],
         Outcome.ok ()) ∧
    handleTraditional sampleEnv sampleBase
        ⟨"GET".toList, "host".toList, "/cred/testbucket".toList, []⟩ false
      ≠ ([Event.httpError "invalid request: missing bucket path".toList 400],
         Outcome.fail (errorsNew "invalid request: missing bucket path".toList)) := by
  decide

/-- C5, amended: for a valid serialized credential `c` and a bucket `b` (no `/` in either,
`b` not empty), a GET or HEAD in traditional mode for `/c/b` is not rejected: the path
parses with an empty key, and when the project opens the answer is a 301 redirect to
`/c/b/`, while a project that fails to open is answered through `handleUplinkErr`. -/
theorem handleTraditional_no_key {Access Project : Type} (env : Env Access Project)
    (urlBase : URL) (r : Request) (locationOnly : Bool) (c b : Str) (access : Access)
    (hc : '/' ∉ c) (hb : '/' ∉ b) (hne : b ≠ [])
    (hpath : r.path = "/".toList ++ c ++ "/".toList ++ b)
    (hacc : env.parseAccess c = Except.ok access) :
    parseRequestPath env.parseAccess r.path = Outcome.ok ⟨false, access, c, b, []⟩ ∧
    (∀ project, env.openProject access = Except.ok project →
      handleTraditional env urlBase r locationOnly
        = ([Event.openProject, Event.redirect (r.path ++ "/".toList) 301, Event.closeProject],
           Outcome.ok ())) ∧
    (∀ err, env.openProject access = Except.error err →
      handleTraditional env urlBase r locationOnly
        = (Event.openProject :: handleUplinkErr "open project".toList err, Outcome.fail err)) := by
  have hparse : parseRequestPath env.parseAccess r.path = Outcome.ok ⟨false, access, c, b, []⟩ := by
    rw [hpath]
    exact parseRequestPath_no_key env.parseAccess c b access hc hb hacc
  refine ⟨hparse, ?_, ?_⟩
  · intro project hopen
    unfold handleTraditional
    rw [hparse]
    simp only [hopen]
    rw [handleOpened_no_key env urlBase r locationOnly project c b access hb hne hpath]
    rfl
  · intro err hopen
    unfold handleTraditional
    rw [hparse]
    simp only [hopen]

theorem handleTraditional_no_key_witness :
    parseRequestPath sampleEnv.parseAccess "/cred/testbucket".toList
      = Outcome.ok ⟨false, "cred".toList, "cred".toList, "testbucket".toList, []⟩ ∧
    (∀ project, sampleEnv.openProject "cred".toList = Except.ok project →
      handleTraditional sampleEnv sampleBase
          ⟨"HEAD".toList, "host".toList, "/cred/testbucket".toList, []⟩ true
        = ([Event.openProject, Event.redirect ("/cred/testbucket".toList ++ "/".toList) 301,
            Event.closeProject], Outcome.ok ())) ∧
    (∀ err, sampleEnv.openProject "cred".toList = Except.error err →
      handleTraditional sampleEnv sampleBase
          ⟨"HEAD".toList, "host".toList, "/cred/testbucket".toList, []⟩ true
        = (Event.openProject :: handleUplinkErr "open project".toList err, Outcome.fail err)) :=
  handleTraditional_no_key sampleEnv sampleBase
    ⟨"HEAD".toList, "host".toList, "/cred/testbucket".toList, []⟩ true "cred".toList
    "testbucket".toList "cred".toList (by decide) (by decide) (by decide) (by decide) (by decide)

/-! ## Mode selection -/

/-- C1, the code at the failing input: the base URL `http://host:99` is accepted by
`parseURLBase`, and a GET request whose `Host` is `host:99` is handled in hosting mode:
the handler looks up the TXT records of `host` and, the lookup failing, answers 500. -/
theorem serveHTTP_same_host_and_port_is_hosting :
    parseURLBase sampleUrlParse "http://host:99".toList = Except.ok sampleBase ∧
    serveHTTP sampleEnv sampleHandler 0 0
        ⟨"GET".toList, "host:99".toList, "/cred/testbucket/test/foo".toList, []⟩
      = (sampleHandler,
         [Event.lookupTXT "host".toList, Event.httpError "unable to handle request".toList 500],
         Outcome.fail ⟨ErrKind.other, "lookup: no such host".toList⟩) := by
  decide

/-! ## Decimal numerals and `strconv.Atoi` -/

theorem digitChar_isDigit (r : Nat) (h : r < 10) :
    (Nat.digitChar r).isDigit = true ∧ (Nat.digitChar r).toNat - 48 = r := by
  interval_cases r <;> exact ⟨by decide, by decide⟩

theorem toDigitsCore_append (fuel n : Nat) (ds : Str) :
    Nat.toDigitsCore 10 fuel n ds = Nat.toDigitsCore 10 fuel n [] ++ ds := by
  induction fuel generalizing n ds with
  | zero => simp [Nat.toDigitsCore]
  | succ fuel ih =>
    simp only [Nat.toDigitsCore]
    by_cases h : n / 10 = 0
    · simp [h]
    · simp only [h, if_false]
      rw [ih (n / 10) (Nat.digitChar (n % 10) :: ds), ih (n / 10) [Nat.digitChar (n % 10)]]
      simp

theorem toDigitsCore_digits (fuel n : Nat) (c : Char)
    (hc : c ∈ Nat.toDigitsCore 10 fuel n []) : c.isDigit = true := by
  induction fuel generalizing n with
  | zero => simp [Nat.toDigitsCore] at hc
  | succ fuel ih =>
    simp only [Nat.toDigitsCore] at hc
    have hd := (digitChar_isDigit (n % 10) (Nat.mod_lt n (by norm_num))).1
    by_cases h : n / 10 = 0
    · simp only [h, if_true, List.mem_singleton] at hc
      rw [hc]; exact hd
    · simp only [h, if_false] at hc
      rw [toDigitsCore_append] at hc
      rcases List.mem_append.mp hc with h1 | h1
      · exact ih (n / 10) h1
      · rw [List.mem_singleton.mp h1]; exact hd

theorem toDigitsCore_ne_nil (fuel n : Nat) : Nat.toDigitsCore 10 (fuel + 1) n [] ≠ [] := by
  simp only [Nat.toDigitsCore]
  by_cases h : n / 10 = 0
  · simp [h]
  · simp only [h, if_false]
    rw [toDigitsCore_append]
    simp

theorem parseUint_toDigitsCore (fuel n : Nat) (ds : Str) (hfuel : n < fuel) (hn : n < 2 ^ 64) :
    parseUint (Nat.toDigitsCore 10 fuel n ds) 0 = parseUint ds n := by
  induction fuel generalizing n ds with
  | zero => omega
  | succ fuel ih =>
    simp only [Nat.toDigitsCore]
    obtain ⟨hd, hv⟩ := digitChar_isDigit (n % 10) (Nat.mod_lt n (by norm_num))
    by_cases h : n / 10 = 0
    · have hn10 : n % 10 = n := by omega
      simp only [h, if_true, parseUint, hd, hv]
      have hn1 : n < 18446744073709551616 := by simpa using hn
      simp [hn10, hn1]
    · simp only [h, if_false]
      rw [ih (n / 10) _ (by omega) (by omega)]
      have hsum : n / 10 * 10 + n % 10 = n := by omega
      simp only [parseUint, hd, hv, if_true, hsum, hn]

/-- The decimal numeral of `n`, as `Nat.repr` prints it. -/
theorem repr_toList (n : Nat) : (Nat.repr n).toList = Nat.toDigitsCore 10 (n + 1) n [] := rfl

theorem repr_digits (n : Nat) (c : Char) (hc : c ∈ (Nat.repr n).toList) : c.isDigit = true :=
  toDigitsCore_digits (n + 1) n c hc

theorem repr_ne_nil (n : Nat) : (Nat.repr n).toList ≠ [] := toDigitsCore_ne_nil n n

theorem not_mem_of_not_digit (c : Char) (hc : c.isDigit = false) (ds : Str)
    (hds : ∀ d ∈ ds, d.isDigit = true) : c ∉ ds := by
  intro hmem
  rw [hds c hmem] at hc
  exact Bool.noConfusion hc

/-- `strconv.Atoi` reads back the decimal numeral of every `n` below `2^63`. -/
theorem atoi_repr (n : Nat) (hn : n < 2 ^ 63) : atoi (Nat.repr n).toList = Except.ok (n : Int) := by
  have hne := repr_ne_nil n
  have hdig := repr_digits n
  have hparse : parseUint (Nat.repr n).toList 0 = Except.ok n := by
    rw [repr_toList, parseUint_toDigitsCore (n + 1) n [] (by omega) (by omega)]
    rfl
  cases hs : (Nat.repr n).toList with
  | nil => exact absurd hs hne
  | cons c cs =>
    have hc : c.isDigit = true := hdig c (by rw [hs]; simp)
    have h1 : c ≠ '-' := by
      intro h; rw [h] at hc; exact absurd hc (by decide)
    have h2 : c ≠ '+' := by
      intro h; rw [h] at hc; exact absurd hc (by decide)
    rw [hs] at hparse
    have hn1 : n < 9223372036854775808 := by simpa using hn
    unfold atoi
    simp [h1, h2, hparse, hn1]

/-! ## The TXT record resolver: one record at a time -/

theorem grantKey_eq (n : Nat) :
    "storj_grant-".toList ++ (Nat.repr n).toList
      = "storj_grant".toList ++ '-' :: (Nat.repr n).toList := by
  have h : "storj_grant-".toList = "storj_grant".toList ++ ['-'] := rfl
  rw [h]; simp

theorem colon_not_mem_grantKey (n : Nat) :
    ':' ∉ "storj_grant-".toList ++ (Nat.repr n).toList := by
  intro h
  rcases List.mem_append.mp h with h1 | h1
  · exact absurd h1 (by decide)
  · exact not_mem_of_not_digit ':' (by decide) _ (repr_digits n) h1

theorem split_grantKey (n : Nat) :
    split '-' ("storj_grant-".toList ++ (Nat.repr n).toList)
      = ["storj_grant".toList, (Nat.repr n).toList] := by
  have hd : '-' ∉ (Nat.repr n).toList :=
    not_mem_of_not_digit '-' (by decide) _ (repr_digits n)
  have hcount : List.count '-' ("storj_grant".toList ++ '-' :: (Nat.repr n).toList) = 1 := by
    rw [List.count_append, List.count_cons_self, List.count_eq_zero.mpr hd]
    rfl
  unfold split
  rw [grantKey_eq, hcount, splitN_append_sep '-' 0 "storj_grant".toList _ (by decide)]
  rfl

theorem hasPrefix_grantKey (n : Nat) :
    hasPrefix ("storj_grant-".toList ++ (Nat.repr n).toList) "storj_grant".toList = true := by
  rw [grantKey_eq]
  exact List.isPrefixOf_iff_prefix.mpr (List.prefix_append _ _)

theorem splitN_grantRecord (n : Nat) (f : Str) :
    splitN ':' 2 (grantRecord n f) = ["storj_grant-".toList ++ (Nat.repr n).toList, f] := by
  unfold grantRecord
  rw [splitN_append_sep ':' 0 _ f (colon_not_mem_grantKey n)]
  rfl

/-- A record `storj_grant-N:fragment` stores the fragment under the index `N`. -/
theorem parseRecordsStep_grant (st : GoMap Int Str × Str) (n : Nat) (f : Str)
    (hn : n < 2 ^ 63) :
    parseRecordsStep st (grantRecord n f) = Outcome.ok (st.1.set (n : Int) f, st.2) := by
  unfold parseRecordsStep
  simp only [splitN_grantRecord, List.getElem?_cons_zero, List.getElem?_cons_succ,
    hasPrefix_grantKey, if_true, split_grantKey, atoi_repr n hn]

theorem splitN_rootRecord (p : Str) :
    splitN ':' 2 (rootRecord p) = ["storj_root".toList, p] := by
  have h : rootRecord p = "storj_root".toList ++ ':' :: p := by
    have h1 : "storj_root:".toList = "storj_root".toList ++ [':'] := rfl
    unfold rootRecord
    rw [h1]; simp
  rw [h, splitN_append_sep ':' 0 _ p (by decide)]
  rfl

/-- A record `storj_root:path` sets the root. -/
theorem parseRecordsStep_root (st : GoMap Int Str × Str) (p : Str) :
    parseRecordsStep st (rootRecord p) = Outcome.ok (st.1, p) := by
  have hpre : hasPrefix "storj_root".toList "storj_grant".toList = false := by decide
  unfold parseRecordsStep
  simp only [splitN_rootRecord, List.getElem?_cons_zero, List.getElem?_cons_succ, hpre]
  simp

theorem cut_fst_takeWhile (sep : Char) (s : Str) :
    (match cut sep s with
      | none => s
      | some (a, _) => a) = s.takeWhile (fun c => c != sep) := by
  induction s with
  | nil => rfl
  | cons c cs ih =>
    unfold cut
    by_cases hc : c = sep
    · simp [hc]
    · have hne : (c != sep) = true := by simpa using hc
      simp only [hc, if_false, List.takeWhile_cons, hne, if_true]
      cases hcut : cut sep cs with
      | none => simp [hcut] at ih ⊢; exact ih
      | some q =>
        obtain ⟨a, b⟩ := q
        simp [hcut] at ih ⊢; exact ih

theorem splitN_two_head (s : Str) : (splitN ':' 2 s)[0]? = some (recordKey s) := by
  have h := cut_fst_takeWhile ':' s
  unfold recordKey
  cases hcut : cut ':' s with
  | none => simp [splitN, hcut] at h ⊢; exact h
  | some q =>
    obtain ⟨a, b⟩ := q
    simp [splitN, hcut] at h ⊢; exact h

/-- A record whose key neither begins with `storj_grant` nor is `storj_root` is skipped. -/
theorem parseRecordsStep_other (st : GoMap Int Str × Str) (t : Str)
    (h1 : hasPrefix (recordKey t) "storj_grant".toList = false)
    (h2 : recordKey t ≠ "storj_root".toList) :
    parseRecordsStep st t = Outcome.ok st := by
  unfold parseRecordsStep
  simp only [splitN_two_head, h1, h2]
  simp

/-! ## Go maps -/

theorem GoMap.get?_set_self {κ ν : Type} [DecidableEq κ] (m : GoMap κ ν) (k : κ) (v : ν) :
    (m.set k v).get? k = some v := by
  simp [GoMap.set, GoMap.get?]

theorem GoMap.get?_set_ne {κ ν : Type} [DecidableEq κ] (m : GoMap κ ν) (k k1 : κ) (v : ν)
    (h : k1 ≠ k) : (m.set k v).get? k1 = m.get? k1 := by
  have hk : ¬ k = k1 := fun e => h e.symm
  have hfun : (fun a : κ × ν => decide ((decide (a.1 ≠ k)) = true ∧ decide (a.1 = k1) = true))
      = (fun a : κ × ν => decide (a.1 = k1)) := by
    funext a
    by_cases ha : a.1 = k1
    · have : ¬ a.1 = k := fun e => h (ha ▸ e)
      simp [ha, h]
    · simp [ha]
  simp only [GoMap.set, GoMap.get?, List.find?_cons, hk, decide_False, List.find?_filter, hfun]

theorem GoMap.keys_set {κ ν : Type} [DecidableEq κ] (m : GoMap κ ν) (k : κ) (v : ν) :
    (m.set k v).keys = k :: m.keys.filter (fun x => decide (x ≠ k)) := by
  simp only [GoMap.set, GoMap.keys, List.map_cons, List.filter_map]
  rfl

theorem GoMap.mem_keys_set {κ ν : Type} [DecidableEq κ] (m : GoMap κ ν) (k k1 : κ) (v : ν) :
    k1 ∈ (m.set k v).keys ↔ k1 = k ∨ k1 ∈ m.keys := by
  rw [GoMap.keys_set]
  by_cases h : k1 = k
  · simp [h]
  · simp [h, List.mem_filter]

theorem GoMap.nodup_keys_set {κ ν : Type} [DecidableEq κ] (m : GoMap κ ν) (k : κ) (v : ν)
    (h : m.keys.Nodup) : (m.set k v).keys.Nodup := by
  rw [GoMap.keys_set, List.nodup_cons]
  exact ⟨by simp [List.mem_filter], h.filter _⟩

theorem GoMap.mem_keys_of_get? {κ ν : Type} [DecidableEq κ] (m : GoMap κ ν) (k : κ) (v : ν)
    (h : m.get? k = some v) : k ∈ m.keys := by
  unfold GoMap.get? at h
  cases hf : m.entries.find? (fun e => decide (e.1 = k)) with
  | none => simp [hf] at h
  | some e =>
    have hmem := List.mem_of_find?_eq_some hf
    have hp := List.find?_some hf
    simp only [decide_eq_true_eq] at hp
    exact List.mem_map.mpr ⟨e, hmem, hp⟩

theorem GoMap.len_eq_keys {κ ν : Type} (m : GoMap κ ν) : m.len = m.keys.length := by
  simp [GoMap.len, GoMap.keys]

/-! ## The TXT record resolver: the record loop -/

theorem parseRecordsStep_render (st : GoMap Int Str × Str) (e : TxtEntry) (he : e.WellFormed) :
    parseRecordsStep st e.render = Outcome.ok (applyEntry st e) := by
  cases e with
  | grant n f => exact parseRecordsStep_grant st n f he
  | root p => exact parseRecordsStep_root st p
  | other t => exact parseRecordsStep_other st t he.1 he.2

theorem parseRecordsLoop_render (es : List TxtEntry) (st : GoMap Int Str × Str)
    (hes : ∀ e ∈ es, e.WellFormed) :
    parseRecordsLoop (es.map TxtEntry.render) st = Outcome.ok (es.foldl applyEntry st) := by
  induction es generalizing st with
  | nil => rfl
  | cons e es ih =>
    simp only [List.map_cons, parseRecordsLoop, List.foldl_cons,
      parseRecordsStep_render st e (hes e (by simp))]
    exact ih _ (fun x hx => hes x (by simp [hx]))

/-- Without a root entry the root is left as it was. -/
theorem foldl_applyEntry_root (es : List TxtEntry) (st : GoMap Int Str × Str)
    (h : ∀ q, TxtEntry.root q ∉ es) : (es.foldl applyEntry st).2 = st.2 := by
  induction es generalizing st with
  | nil => rfl
  | cons e es ih =>
    rw [List.foldl_cons, ih _ (fun q hq => h q (by simp [hq]))]
    cases e with
    | grant n f => rfl
    | root p => exact absurd (by simp) (h p)
    | other t => rfl

/-- The root after the loop is the path of the last root entry. -/
theorem foldl_applyEntry_last_root (pre post : List TxtEntry) (p : Str)
    (st : GoMap Int Str × Str) (h : ∀ q, TxtEntry.root q ∉ post) :
    ((pre ++ TxtEntry.root p :: post).foldl applyEntry st).2 = p := by
  rw [List.foldl_append, List.foldl_cons, foldl_applyEntry_root post _ h]
  rfl

/-- The keys after the loop are the keys before it and the grant indices. -/
theorem mem_keys_foldl (es : List TxtEntry) (st : GoMap Int Str × Str) (k : Int) :
    k ∈ (es.foldl applyEntry st).1.keys ↔
      k ∈ st.1.keys ∨ ∃ n f, TxtEntry.grant n f ∈ es ∧ k = (n : Int) := by
  induction es generalizing st with
  | nil => simp
  | cons e es ih =>
    rw [List.foldl_cons, ih]
    cases e with
    | grant n f =>
      simp only [applyEntry, GoMap.mem_keys_set, List.mem_cons, TxtEntry.grant.injEq]
      constructor
      · rintro ((h | h) | ⟨n1, f1, h1, h2⟩)
        · exact Or.inr ⟨n, f, Or.inl ⟨rfl, rfl⟩, h⟩
        · exact Or.inl h
        · exact Or.inr ⟨n1, f1, Or.inr h1, h2⟩
      · rintro (h | ⟨n1, f1, (⟨h1, _⟩ | h1), h2⟩)
        · exact Or.inl (Or.inr h)
        · exact Or.inl (Or.inl (by rw [h2, h1]))
        · exact Or.inr ⟨n1, f1, h1, h2⟩
    | root p => simp [applyEntry]
    | other t => simp [applyEntry]

theorem nodup_keys_foldl (es : List TxtEntry) (st : GoMap Int Str × Str)
    (h : st.1.keys.Nodup) : (es.foldl applyEntry st).1.keys.Nodup := by
  induction es generalizing st with
  | nil => exact h
  | cons e es ih =>
    rw [List.foldl_cons]
    apply ih
    cases e with
    | grant n f => exact GoMap.nodup_keys_set _ _ _ h
    | root p => exact h
    | other t => exact h

/-- An index with a single fragment among the entries holds that fragment after the
loop; an index without an entry holds what it held before. -/
theorem get?_foldl (es : List TxtEntry) (st : GoMap Int Str × Str) (n : Nat) (f : Str)
    (huniq : ∀ f1, TxtEntry.grant n f1 ∈ es → f1 = f) :
    (es.foldl applyEntry st).1.get? (n : Int) = some f ∨
    ((es.foldl applyEntry st).1.get? (n : Int) = st.1.get? (n : Int) ∧
      ∀ f1, TxtEntry.grant n f1 ∉ es) := by
  induction es generalizing st with
  | nil => right; exact ⟨rfl, by simp⟩
  | cons e es ih =>
    rw [List.foldl_cons]
    have ih1 := ih (applyEntry st e) (fun f1 h1 => huniq f1 (by simp [h1]))
    cases e with
    | grant m g =>
      by_cases hm : m = n
      · subst hm
        have hg : g = f := huniq g (by simp)
        subst hg
        left
        rcases ih1 with h | ⟨h, _⟩
        · exact h
        · rw [h]; exact GoMap.get?_set_self _ _ _
      · rcases ih1 with h | ⟨h, h2⟩
        · exact Or.inl h
        · right
          refine ⟨?_, ?_⟩
          · rw [h]
            have hne : (n : Int) ≠ (m : Int) := by
              intro e
              exact hm (by exact_mod_cast e.symm)
            exact GoMap.get?_set_ne _ _ _ _ hne
          · intro f1 hf1
            rcases List.mem_cons.mp hf1 with h3 | h3
            · simp only [TxtEntry.grant.injEq] at h3
              exact hm h3.1.symm
            · exact h2 f1 h3
    | root p =>
      rcases ih1 with h | ⟨h, h2⟩
      · exact Or.inl h
      · exact Or.inr ⟨h, fun f1 hf1 => h2 f1 (by simpa using hf1)⟩
    | other t =>
      rcases ih1 with h | ⟨h, h2⟩
      · exact Or.inl h
      · exact Or.inr ⟨h, fun f1 hf1 => h2 f1 (by simpa using hf1)⟩

/-! ## The TXT record resolver: assembling the grant -/

theorem joinGrants_ok (g : GoMap Int Str) (fs : List Str) (i : Int) (acc : Str)
    (h : ∀ (j : Nat) (f : Str), fs[j]? = some f → g.get? (i + j) = some f ∧ f ≠ []) :
    joinGrants g fs.length i acc = Outcome.ok (acc ++ fs.flatten) := by
  induction fs generalizing i acc with
  | nil => simp [joinGrants]
  | cons f fs ih =>
    obtain ⟨h0, hne⟩ := h 0 f (by simp)
    have h0a : g.get? i = some f := by simpa using h0
    have hstep : ∀ (j : Nat) (f1 : Str), fs[j]? = some f1 →
        g.get? (i + 1 + j) = some f1 ∧ f1 ≠ [] := by
      intro j f1 hj
      have := h (j + 1) f1 (by simpa using hj)
      have e : i + ((j + 1 : Nat) : Int) = i + 1 + (j : Int) := by push_cast; ring
      rw [e] at this
      exact this
    simp only [List.length_cons, joinGrants, h0a, Option.getD_some, hne, if_false]
    rw [ih (i + 1) (acc ++ f) hstep]
    simp

theorem joinGrants_fail_or (g : GoMap Int Str) (remaining : Nat) (i : Int) (acc : Str) :
    joinGrants g remaining i acc = Outcome.fail (errorsNew "missing grants".toList) ∨
    ∀ j : Nat, j < remaining → ∃ v, g.get? (i + j) = some v := by
  induction remaining generalizing i acc with
  | zero => right; intro j hj; omega
  | succ remaining ih =>
    by_cases hz : (g.get? i).getD [] = []
    · left; simp [joinGrants, hz]
    · simp only [joinGrants, hz, if_false]
      rcases ih (i + 1) (acc ++ (g.get? i).getD []) with h | h
      · exact Or.inl h
      · right
        intro j hj
        cases j with
        | zero =>
          cases hg : g.get? i with
          | none => simp [hg] at hz
          | some v => exact ⟨v, by simpa using hg⟩
        | succ j =>
          obtain ⟨v, hv⟩ := h j (by omega)
          refine ⟨v, ?_⟩
          have e : i + ((j + 1 : Nat) : Int) = i + 1 + (j : Int) := by push_cast; ring
          rw [e]; exact hv

/-- The indices `1, ..., n` as map keys. -/
theorem nodup_indices (n : Nat) :
    ((List.range n).map (fun j : Nat => (1 : Int) + (j : Int))).Nodup := by
  apply List.Nodup.map _ (List.nodup_range n)
  intro a b hab
  simp only at hab
  omega

theorem mem_indices (n : Nat) (k : Int) :
    k ∈ (List.range n).map (fun j : Nat => (1 : Int) + (j : Int)) ↔
      ∃ j : Nat, j < n ∧ k = 1 + (j : Int) := by
  simp only [List.mem_map, List.mem_range]
  constructor
  · rintro ⟨j, hj, rfl⟩; exact ⟨j, hj, rfl⟩
  · rintro ⟨j, hj, rfl⟩; exact ⟨j, hj, rfl⟩

theorem mem_grantEntriesFrom (k : Nat) (fs : List Str) (e : TxtEntry) :
    e ∈ grantEntriesFrom k fs ↔ ∃ (j : Nat) (f : Str), fs[j]? = some f ∧ e = TxtEntry.grant (k + j) f := by
  induction fs generalizing k with
  | nil => simp [grantEntriesFrom]
  | cons f fs ih =>
    simp only [grantEntriesFrom, List.mem_cons, ih]
    constructor
    · rintro (h | ⟨j, f1, h1, h2⟩)
      · exact ⟨0, f, by simp, by simpa using h⟩
      · exact ⟨j + 1, f1, by simpa using h1, by rw [h2]; congr 1; omega⟩
    · rintro ⟨j, f1, h1, h2⟩
      cases j with
      | zero =>
        left
        simp only [List.getElem?_cons_zero, Option.some.injEq] at h1
        rw [h2, h1]; rfl
      | succ j =>
        right
        exact ⟨j, f1, by simpa using h1, by rw [h2]; congr 1; omega⟩

theorem map_render_grantEntriesFrom (k : Nat) (fs : List Str) :
    (grantEntriesFrom k fs).map TxtEntry.render = grantRecordsFrom k fs := by
  induction fs generalizing k with
  | nil => rfl
  | cons f fs ih => simp [grantEntriesFrom, grantRecordsFrom, TxtEntry.render, ih]

/-! ## The TXT record resolver: the result -/

theorem parseRecords_of_join {Access : Type} (parseAccess : Str → Except Error Access)
    (records : List Str) (g : GoMap Int Str) (rt s : Str)
    (hloop : parseRecordsLoop records (GoMap.empty, []) = Outcome.ok (g, rt)) (hrt : rt ≠ [])
    (hjoin : joinGrants g g.len 1 [] = Outcome.ok s) :
    parseRecords parseAccess records =
      match parseAccess s with
      | Except.ok access => Outcome.ok (access, rt)
      | Except.error err => Outcome.fail err := by
  unfold parseRecords
  rw [hloop]
  simp only [hrt, if_false, hjoin]
  cases parseAccess s <;> rfl

theorem parseRecords_of_join_fail {Access : Type} (parseAccess : Str → Except Error Access)
    (records : List Str) (g : GoMap Int Str) (rt : Str) (err : Error)
    (hloop : parseRecordsLoop records (GoMap.empty, []) = Outcome.ok (g, rt)) (hrt : rt ≠ [])
    (hjoin : joinGrants g g.len 1 [] = Outcome.fail err) :
    parseRecords parseAccess records = Outcome.fail err := by
  unfold parseRecords
  rw [hloop]
  simp only [hrt, if_false, hjoin]

theorem parseRecords_of_no_root {Access : Type} (parseAccess : Str → Except Error Access)
    (records : List Str) (g : GoMap Int Str)
    (hloop : parseRecordsLoop records (GoMap.empty, []) = Outcome.ok (g, [])) :
    parseRecords parseAccess records
      = Outcome.fail (errorsNew "missing root path in txt record".toList) := by
  unfold parseRecords
  rw [hloop]
  simp

theorem keys_empty : (GoMap.empty : GoMap Int Str).keys = [] := rfl

/-- The resolver on any arrangement of the entries `storj_grant-1:f1`, ...,
`storj_grant-n:fn`, `storj_root:r`. -/
theorem parseRecords_perm_entries {Access : Type} (parseAccess : Str → Except Error Access)
    (fs : List Str) (root : Str) (es : List TxtEntry)
    (hlen : fs.length < 2 ^ 63) (hf : ∀ f ∈ fs, f ≠ []) (hr : root ≠ [])
    (hperm : es.Perm (grantEntriesFrom 1 fs ++ [TxtEntry.root root])) :
    parseRecords parseAccess (es.map TxtEntry.render) =
      match parseAccess fs.flatten with
      | Except.ok access => Outcome.ok (access, root)
      | Except.error err => Outcome.fail err := by
  have hmem : ∀ e, e ∈ es ↔
      (∃ (j : Nat) (f : Str), fs[j]? = some f ∧ e = TxtEntry.grant (1 + j) f) ∨
        e = TxtEntry.root root := by
    intro e
    rw [hperm.mem_iff, List.mem_append, mem_grantEntriesFrom, List.mem_singleton]
  have hwf : ∀ e ∈ es, e.WellFormed := by
    intro e he
    rcases (hmem e).mp he with ⟨j, f, hj, rfl⟩ | rfl
    · obtain ⟨hlt, _⟩ := List.getElem?_eq_some.mp hj
      show 1 + j < 2 ^ 63
      omega
    · trivial
  obtain ⟨pre, post, hsplit⟩ := List.append_of_mem ((hmem _).mpr (Or.inr rfl))
  have hpost : ∀ q, TxtEntry.root q ∉ post := by
    intro q hq
    have h2 : (TxtEntry.root root :: (pre ++ post)).Perm
        (TxtEntry.root root :: grantEntriesFrom 1 fs) :=
      (List.perm_middle.symm.trans (hsplit ▸ hperm)).trans (List.perm_append_singleton _ _)
    have h3 : TxtEntry.root q ∈ grantEntriesFrom 1 fs :=
      h2.cons_inv.subset (by simp [hq])
    obtain ⟨j, f, _, h4⟩ := (mem_grantEntriesFrom 1 fs _).mp h3
    cases h4
  have hroot : (es.foldl applyEntry (GoMap.empty, [])).2 = root := by
    rw [hsplit]
    exact foldl_applyEntry_last_root pre post root _ hpost
  have hget : ∀ (j : Nat) (f : Str), fs[j]? = some f →
      (es.foldl applyEntry (GoMap.empty, [])).1.get? ((1 : Int) + j) = some f ∧ f ≠ [] := by
    intro j f hj
    have hmemj : TxtEntry.grant (1 + j) f ∈ es := (hmem _).mpr (Or.inl ⟨j, f, hj, rfl⟩)
    have huniq : ∀ f1, TxtEntry.grant (1 + j) f1 ∈ es → f1 = f := by
      intro f1 h1
      rcases (hmem _).mp h1 with ⟨j1, f2, hj1, h2⟩ | h2
      · simp only [TxtEntry.grant.injEq] at h2
        obtain ⟨h3, rfl⟩ := h2
        have hjj : j1 = j := by omega
        subst hjj
        rw [hj] at hj1
        exact (Option.some.inj hj1).symm
      · cases h2
    have hcast : ((1 + j : Nat) : Int) = 1 + (j : Int) := by push_cast; rfl
    rcases get?_foldl es (GoMap.empty, []) (1 + j) f huniq with h | ⟨_, h⟩
    · exact ⟨by rw [← hcast]; exact h, hf f (List.getElem?_mem hj)⟩
    · exact absurd hmemj (h f)
  have hlenF : (es.foldl applyEntry (GoMap.empty, [])).1.len = fs.length := by
    rw [GoMap.len_eq_keys]
    have hnd := nodup_keys_foldl es (GoMap.empty, []) (by rw [keys_empty]; exact List.nodup_nil)
    have hsub1 : (es.foldl applyEntry (GoMap.empty, [])).1.keys ⊆
        (List.range fs.length).map (fun j : Nat => (1 : Int) + (j : Int)) := by
      intro k hk
      rcases (mem_keys_foldl es _ k).mp hk with h | ⟨n, f, h1, h2⟩
      · rw [keys_empty] at h
        exact absurd h (List.not_mem_nil _)
      · rcases (hmem _).mp h1 with ⟨j, f2, hj, h3⟩ | h3
        · simp only [TxtEntry.grant.injEq] at h3
          obtain ⟨hlt, _⟩ := List.getElem?_eq_some.mp hj
          rw [mem_indices]
          exact ⟨j, hlt, by rw [h2, h3.1]; push_cast; rfl⟩
        · cases h3
    have hsub2 : (List.range fs.length).map (fun j : Nat => (1 : Int) + (j : Int)) ⊆
        (es.foldl applyEntry (GoMap.empty, [])).1.keys := by
      intro k hk
      obtain ⟨j, hj, rfl⟩ := (mem_indices _ _).mp hk
      exact GoMap.mem_keys_of_get? _ _ _ (hget j fs[j] (List.getElem?_eq_getElem hj)).1
    have h1 := (List.subperm_of_subset hnd hsub1).length_le
    have h2 := (List.subperm_of_subset (nodup_indices _) hsub2).length_le
    simp only [List.length_map, List.length_range] at h1 h2
    omega
  cases hF : es.foldl applyEntry (GoMap.empty, []) with
  | mk g rt =>
    rw [hF] at hroot hget hlenF
    simp only at hroot hget hlenF
    have hjoin : joinGrants g g.len 1 [] = Outcome.ok fs.flatten := by
      rw [hlenF]
      have := joinGrants_ok g fs 1 [] hget
      simpa using this
    have hloop := parseRecordsLoop_render es (GoMap.empty, []) hwf
    rw [hF] at hloop
    rw [parseRecords_of_join parseAccess _ g rt fs.flatten hloop (by rw [hroot]; exact hr) hjoin,
      hroot]

/-! ## The TXT record resolver: the order of the records -/

theorem exists_perm_of_perm_map {α β : Type} [DecidableEq α] (f : α → β) (l : List β) :
    ∀ L : List α, l.Perm (L.map f) → ∃ L1 : List α, L1.Perm L ∧ L1.map f = l := by
  induction l with
  | nil =>
    intro L h
    have hL : L = [] := by
      have := h.length_eq
      simp only [List.length_nil, List.length_map] at this
      exact List.length_eq_zero.mp this.symm
    exact ⟨[], by rw [hL], rfl⟩
  | cons x l ih =>
    intro L h
    have hx : x ∈ L.map f := h.subset (by simp)
    obtain ⟨a, ha, rfl⟩ := List.mem_map.mp hx
    have h1 : L.Perm (a :: L.erase a) := List.perm_cons_erase ha
    have h2 : (f a :: l).Perm (f a :: (L.erase a).map f) := h.trans (h1.map f)
    obtain ⟨L2, hL2, hmap⟩ := ih (L.erase a) h2.cons_inv
    exact ⟨a :: L2, (hL2.cons a).trans h1.symm, by simp [hmap]⟩

/-- C8: for fragments `f1, ..., fn` and a root `r`, none of them empty, and any ordering
of the records `storj_grant-1:f1`, ..., `storj_grant-n:fn`, `storj_root:r`,
`parseRecords` deserializes exactly `f1 ++ ... ++ fn` and returns the root `r` (the count
of records fits a Go `int`; the statement also covers `n = 0`). -/
theorem parseRecords_any_order {Access : Type} (parseAccess : Str → Except Error Access)
    (fragments : List Str) (root : Str) (records : List Str)
    (hlen : fragments.length < 2 ^ 63) (hf : ∀ f ∈ fragments, f ≠ []) (hr : root ≠ [])
    (hperm : records.Perm (grantRecordsFrom 1 fragments ++ [rootRecord root])) :
    parseRecords parseAccess records =
      match parseAccess fragments.flatten with
      | Except.ok access => Outcome.ok (access, root)
      | Except.error err => Outcome.fail err := by
  have hcanon : (grantEntriesFrom 1 fragments ++ [TxtEntry.root root]).map TxtEntry.render
      = grantRecordsFrom 1 fragments ++ [rootRecord root] := by
    simp [map_render_grantEntriesFrom, TxtEntry.render]
  rw [← hcanon] at hperm
  obtain ⟨es, hes, hmap⟩ := exists_perm_of_perm_map TxtEntry.render records _ hperm
  rw [← hmap]
  exact parseRecords_perm_entries parseAccess fragments root es hlen hf hr hes

theorem parseRecords_any_order_witness :
    parseRecords keepSerialized
        ["storj_grant-2:efgh".toList, "storj_root:mybucket/folder".toList,
          "storj_grant-1:abcd".toList] =
      match keepSerialized ["abcd".toList, "efgh".toList].flatten with
      | Except.ok access => Outcome.ok (access, "mybucket/folder".toList)
      | Except.error err => Outcome.fail err :=
  parseRecords_any_order keepSerialized ["abcd".toList, "efgh".toList] "mybucket/folder".toList
    ["storj_grant-2:efgh".toList, "storj_root:mybucket/folder".toList,
      "storj_grant-1:abcd".toList]
    (by decide) (by decide) (by decide) (by decide)

/-! ## The TXT record resolver: missing pieces -/

theorem recordKey_rootRecord (q : Str) : recordKey (rootRecord q) = "storj_root".toList := by
  have h := splitN_two_head (rootRecord q)
  rw [splitN_rootRecord] at h
  simpa using h.symm

theorem recordKey_grantRecord (n : Nat) (f : Str) :
    recordKey (grantRecord n f) = "storj_grant-".toList ++ (Nat.repr n).toList := by
  have h := splitN_two_head (grantRecord n f)
  rw [splitN_grantRecord] at h
  simpa using h.symm

/-- Records whose grant and root records are well formed are the texts of entries. -/
theorem exists_entries (records : List Str)
    (hgrant : ∀ rec ∈ records, hasPrefix (recordKey rec) "storj_grant".toList = true →
      ∃ (n : Nat) (g : Str), n < 2 ^ 63 ∧ rec = grantRecord n g)
    (hroot : ∀ rec ∈ records, recordKey rec = "storj_root".toList → ∃ q, rec = rootRecord q) :
    ∃ es : List TxtEntry, (∀ e ∈ es, e.WellFormed) ∧ es.map TxtEntry.render = records := by
  induction records with
  | nil => exact ⟨[], by simp, rfl⟩
  | cons rec records ih =>
    obtain ⟨es, hwf, hmap⟩ := ih (fun r hr => hgrant r (by simp [hr]))
      (fun r hr => hroot r (by simp [hr]))
    have hone : ∃ e : TxtEntry, e.WellFormed ∧ e.render = rec := by
      by_cases h1 : hasPrefix (recordKey rec) "storj_grant".toList = true
      · obtain ⟨n, g, hn, he⟩ := hgrant rec (by simp) h1
        exact ⟨TxtEntry.grant n g, hn, he.symm⟩
      · by_cases h2 : recordKey rec = "storj_root".toList
        · obtain ⟨q, he⟩ := hroot rec (by simp) h2
          exact ⟨TxtEntry.root q, trivial, he.symm⟩
        · exact ⟨TxtEntry.other rec, ⟨by simpa using h1, h2⟩, rfl⟩
    obtain ⟨e, he, hr⟩ := hone
    refine ⟨e :: es, ?_, by simp [hr, hmap]⟩
    intro x hx
    rcases List.mem_cons.mp hx with h | h
    · rw [h]; exact he
    · exact hwf x h

theorem entry_of_render_grant (e : TxtEntry) (he : e.WellFormed) (m : Nat) (f : Str)
    (hm : m < 2 ^ 63) (hr : e.render = grantRecord m f) : e = TxtEntry.grant m f := by
  have h1 := parseRecordsStep_render (GoMap.empty, []) e he
  rw [hr, parseRecordsStep_grant _ m f hm] at h1
  cases e with
  | grant n g =>
    simp only [applyEntry, GoMap.set, GoMap.empty, Outcome.ok.injEq, Prod.mk.injEq,
      GoMap.mk.injEq, List.filter_nil, List.cons.injEq, and_true] at h1
    obtain ⟨h2, h3⟩ := h1
    have h4 : m = n := by exact_mod_cast h2
    rw [h4, h3]
  | root q => simp [applyEntry, GoMap.set, GoMap.empty] at h1
  | other t => simp [applyEntry, GoMap.set, GoMap.empty] at h1

theorem entry_of_render_root (e : TxtEntry) (he : e.WellFormed) (p : Str)
    (hr : e.render = rootRecord p) : e = TxtEntry.root p := by
  have h1 := parseRecordsStep_render (GoMap.empty, 'x' :: p) e he
  rw [hr, parseRecordsStep_root] at h1
  cases e with
  | grant n g => simp [applyEntry, GoMap.set, GoMap.empty] at h1
  | root q =>
    simp only [applyEntry, Outcome.ok.injEq, Prod.mk.injEq, true_and] at h1
    rw [h1]
  | other t =>
    simp only [applyEntry, Outcome.ok.injEq, Prod.mk.injEq, true_and] at h1
    have := congrArg List.length h1
    simp at this

/-- The resolver on entries whose last root is not empty and whose grant indices leave
a gap below an index that is present. -/
theorem parseRecords_gap_entries {Access : Type} (parseAccess : Str → Except Error Access)
    (es pre post : List TxtEntry) (p : Str) (j m : Nat) (f : Str)
    (hwf : ∀ e ∈ es, e.WellFormed)
    (hsplit : es = pre ++ TxtEntry.root p :: post) (hp : p ≠ [])
    (hpost : ∀ q, TxtEntry.root q ∉ post)
    (hj : 1 ≤ j) (hjm : j ≤ m) (hmem : TxtEntry.grant m f ∈ es)
    (hgap : ∀ g, TxtEntry.grant j g ∉ es) :
    parseRecords parseAccess (es.map TxtEntry.render)
      = Outcome.fail (errorsNew "missing grants".toList) := by
  have hroot : (es.foldl applyEntry (GoMap.empty, [])).2 = p := by
    rw [hsplit]
    exact foldl_applyEntry_last_root pre post p _ hpost
  have hnd := nodup_keys_foldl es (GoMap.empty, []) (by rw [keys_empty]; exact List.nodup_nil)
  have hkeys := mem_keys_foldl es (GoMap.empty, [])
  have hloop := parseRecordsLoop_render es (GoMap.empty, []) hwf
  cases hF : es.foldl applyEntry (GoMap.empty, []) with
  | mk g rt =>
    rw [hF] at hroot hnd hkeys hloop
    simp only at hroot hnd hkeys
    have hrt : rt ≠ [] := by rw [hroot]; exact hp
    rcases joinGrants_fail_or g g.len 1 [] with hfail | hall
    · exact parseRecords_of_join_fail parseAccess _ g rt _ hloop hrt hfail
    · exfalso
      have hsub : (List.range g.len).map (fun i : Nat => (1 : Int) + (i : Int)) ⊆ g.keys := by
        intro k hk
        obtain ⟨i, hi, rfl⟩ := (mem_indices _ _).mp hk
        obtain ⟨v, hv⟩ := hall i hi
        exact GoMap.mem_keys_of_get? g _ v hv
      have hperm := (List.subperm_of_subset (nodup_indices g.len) hsub).perm_of_length_le
        (by rw [GoMap.len_eq_keys]; simp)
      have hmkey : ((m : Nat) : Int) ∈ g.keys := (hkeys _).mpr (Or.inr ⟨m, f, hmem, rfl⟩)
      obtain ⟨i, hi, hmi⟩ := (mem_indices _ _).mp (hperm.symm.subset hmkey)
      have hjkey : ((j : Nat) : Int) ∈ g.keys := by
        apply hsub
        rw [mem_indices]
        exact ⟨j - 1, by omega, by omega⟩
      rcases (hkeys _).mp hjkey with h | ⟨n, g1, h1, h2⟩
      · rw [keys_empty] at h
        exact absurd h (List.not_mem_nil _)
      · have hn : j = n := by exact_mod_cast h2
        subst hn
        exact hgap g1 h1

/-- C9 fails as stated: these records hold `storj_root:b` and grants 1 and 3, which leave
the gap 2, yet the error is the missing root path, since the last `storj_root` record has
an empty value. -/
theorem parseRecords_gap_but_missing_root :
    parseRecords keepSerialized
        ["storj_root:b".toList, "storj_grant-1:a".toList, "storj_grant-3:c".toList,
          "storj_root:".toList]
      = Outcome.fail (errorsNew "missing root path in txt record".toList) := by
  decide

/-- C9, amended: take TXT records in which every record whose key begins with
`storj_grant` is `storj_grant-N:value` with a decimal `N` that fits an `int`, every record
with the key `storj_root` is `storj_root:value`, the last `storj_root` record has a value
that is not empty, and some index `j` in `1..m`, with `m` the index of a grant record,
has no record. Then `parseRecords` fails with `missing grants`, whatever
`uplink.ParseAccess` would return. -/
theorem parseRecords_gap {Access : Type} (parseAccess : Str → Except Error Access)
    (records pre post : List Str) (p : Str) (j m : Nat) (f : Str)
    (hgrant : ∀ rec ∈ records, hasPrefix (recordKey rec) "storj_grant".toList = true →
      ∃ (n : Nat) (g : Str), n < 2 ^ 63 ∧ rec = grantRecord n g)
    (hrootform : ∀ rec ∈ records, recordKey rec = "storj_root".toList →
      ∃ q, rec = rootRecord q)
    (hsplit : records = pre ++ rootRecord p :: post) (hp : p ≠ [])
    (hpost : ∀ rec ∈ post, recordKey rec ≠ "storj_root".toList)
    (hj : 1 ≤ j) (hjm : j ≤ m) (hm : m < 2 ^ 63) (hmem : grantRecord m f ∈ records)
    (hgap : ∀ g, grantRecord j g ∉ records) :
    parseRecords parseAccess records = Outcome.fail (errorsNew "missing grants".toList) := by
  obtain ⟨es, hwf, hmap⟩ := exists_entries records hgrant hrootform
  have hmap1 := hmap
  rw [hsplit] at hmap1
  obtain ⟨epre, erest, hes, hpremap, hrest⟩ := List.map_eq_append_iff.mp hmap1
  obtain ⟨e, epost, herest, hrender, hpostmap⟩ := List.map_eq_cons_iff.mp hrest
  have he : e ∈ es := by rw [hes, herest]; simp
  have heq : e = TxtEntry.root p := entry_of_render_root e (hwf e he) p hrender
  have hpost1 : ∀ q, TxtEntry.root q ∉ epost := by
    intro q hq
    have h1 : rootRecord q ∈ post := by
      rw [← hpostmap]
      exact List.mem_map.mpr ⟨_, hq, rfl⟩
    exact hpost _ h1 (recordKey_rootRecord q)
  have hmem1 : TxtEntry.grant m f ∈ es := by
    rw [← hmap] at hmem
    obtain ⟨x, hx, hxr⟩ := List.mem_map.mp hmem
    rw [← entry_of_render_grant x (hwf x hx) m f hm hxr]
    exact hx
  have hgap1 : ∀ g, TxtEntry.grant j g ∉ es := by
    intro g hg
    apply hgap g
    rw [← hmap]
    exact List.mem_map.mpr ⟨_, hg, rfl⟩
  rw [← hmap]
  exact parseRecords_gap_entries parseAccess es epre epost p j m f hwf
    (by rw [hes, herest, heq]) hp hpost1 hj hjm hmem1 hgap1

theorem parseRecords_gap_witness :
    parseRecords keepSerialized
        ["storj_grant-3:c".toList, "spf:none".toList, "storj_root:b".toList,
          "storj_grant-1:a".toList]
      = Outcome.fail (errorsNew "missing grants".toList) :=
  parseRecords_gap keepSerialized
    ["storj_grant-3:c".toList, "spf:none".toList, "storj_root:b".toList,
      "storj_grant-1:a".toList]
    ["storj_grant-3:c".toList, "spf:none".toList] ["storj_grant-1:a".toList] "b".toList 2 3
    "c".toList
    (by
      intro rec hrec
      simp only [List.mem_cons, List.mem_singleton, List.not_mem_nil, or_false] at hrec
      rcases hrec with rfl | rfl | rfl | rfl
      · intro _; exact ⟨3, "c".toList, by norm_num, by decide⟩
      · intro h; exact absurd h (by decide)
      · intro h; exact absurd h (by decide)
      · intro _; exact ⟨1, "a".toList, by norm_num, by decide⟩)
    (by
      intro rec hrec
      simp only [List.mem_cons, List.mem_singleton, List.not_mem_nil, or_false] at hrec
      rcases hrec with rfl | rfl | rfl | rfl
      · intro h; exact absurd h (by decide)
      · intro h; exact absurd h (by decide)
      · intro _; exact ⟨"b".toList, by decide⟩
      · intro h; exact absurd h (by decide))
    (by decide) (by decide) (by decide) (by decide) (by decide) (by norm_num) (by decide)
    (by
      intro g hg
      simp only [List.mem_cons, List.mem_singleton, List.not_mem_nil, or_false] at hg
      have key : ∀ t : Str, grantRecord 2 g = t → recordKey t = "storj_grant-2".toList := by
        intro t ht
        rw [← ht, recordKey_grantRecord]
        decide
      rcases hg with h | h | h | h
      · exact absurd (key _ h) (by decide)
      · exact absurd (key _ h) (by decide)
      · exact absurd (key _ h) (by decide)
      · exact absurd (key _ h) (by decide))

/-- C10 fails as stated: no record has the key `storj_root`, yet the error is the one
of `strconv.Atoi` for the grant index `x`. -/
theorem parseRecords_no_root_but_atoi_error :
    parseRecords keepSerialized ["storj_grant-x:abc".toList]
      = Outcome.fail (numError "x".toList "invalid syntax".toList) ∧
    numError "x".toList "invalid syntax".toList
      ≠ errorsNew "missing root path in txt record".toList := by
  decide

/-- C10, amended: for TXT records none of which has the key `storj_root`, and in which
every record whose key begins with `storj_grant` is `storj_grant-N:value` with a decimal
`N` that fits an `int`, `parseRecords` fails with `missing root path in txt record`. -/
theorem parseRecords_no_root {Access : Type} (parseAccess : Str → Except Error Access)
    (records : List Str)
    (hgrant : ∀ rec ∈ records, hasPrefix (recordKey rec) "storj_grant".toList = true →
      ∃ (n : Nat) (g : Str), n < 2 ^ 63 ∧ rec = grantRecord n g)
    (hnoroot : ∀ rec ∈ records, recordKey rec ≠ "storj_root".toList) :
    parseRecords parseAccess records
      = Outcome.fail (errorsNew "missing root path in txt record".toList) := by
  obtain ⟨es, hwf, hmap⟩ := exists_entries records hgrant
    (fun rec hrec h => absurd h (hnoroot rec hrec))
  have hno : ∀ q, TxtEntry.root q ∉ es := by
    intro q hq
    have h1 : rootRecord q ∈ records := by
      rw [← hmap]
      exact List.mem_map.mpr ⟨_, hq, rfl⟩
    exact hnoroot _ h1 (recordKey_rootRecord q)
  have hloop := parseRecordsLoop_render es (GoMap.empty, []) hwf
  have hroot := foldl_applyEntry_root es (GoMap.empty, []) hno
  cases hF : es.foldl applyEntry (GoMap.empty, []) with
  | mk g rt =>
    rw [hF] at hloop hroot
    simp only at hroot
    rw [hroot] at hloop
    rw [← hmap]
    exact parseRecords_of_no_root parseAccess _ g hloop

theorem parseRecords_no_root_witness :
    parseRecords keepSerialized
        ["storj_grant-1:abcd".toList, "spf:none".toList, "nocolon".toList]
      = Outcome.fail (errorsNew "missing root path in txt record".toList) :=
  parseRecords_no_root keepSerialized
    ["storj_grant-1:abcd".toList, "spf:none".toList, "nocolon".toList]
    (by
      intro rec hrec
      simp only [List.mem_cons, List.mem_singleton, List.not_mem_nil, or_false] at hrec
      rcases hrec with rfl | rfl | rfl
      · intro _; exact ⟨1, "abcd".toList, by norm_num, by decide⟩
      · intro h; exact absurd h (by decide)
      · intro h; exact absurd h (by decide))
    (by decide)

/-! ## The credential cache -/

/-- C11 fails as stated: an entry resolved at time 0 with the time-to-live 10 is read at
time 10, when its age equals the time-to-live, and is reported as found. -/
theorem checkCache_age_equals_ttl :
    checkCache sampleCache 10 "a.example".toList
      = (some ⟨"old".toList, "site".toList, 0⟩, true) ∧ ¬ ((10 : Int) < 0 + sampleCache.ttl) := by
  decide

/-- C11, amended: `checkCache` returns a stored entry, and reports it as found exactly
when `now ≤ resolved-at + ttl`; an entry whose age equals the time-to-live is still found,
and it is absent from the first instant after that. -/
theorem checkCache_fresh_iff {Access : Type} (t : TxtRecords Access) (now : Int)
    (hostname : Str) (record : TxtRecord Access)
    (h : t.cache.get? hostname = some record) :
    (checkCache t now hostname).1 = some record ∧
    ((checkCache t now hostname).2 = true ↔ now ≤ record.timestamp + t.ttl) := by
  unfold checkCache
  rw [h]
  by_cases hexp : record.timestamp + t.ttl < now
  · have hle : ¬ now ≤ record.timestamp + t.ttl := by omega
    simp [recordIsExpired, hexp, hle]
  · have hle : now ≤ record.timestamp + t.ttl := by omega
    simp [recordIsExpired, hexp, hle]

theorem checkCache_fresh_iff_witness :
    (checkCache sampleCache 11 "a.example".toList).1 = some ⟨"old".toList, "site".toList, 0⟩ ∧
    ((checkCache sampleCache 11 "a.example".toList).2 = true ↔
      (11 : Int) ≤ (⟨"old".toList, "site".toList, 0⟩ : TxtRecord Str).timestamp + sampleCache.ttl) :=
  checkCache_fresh_iff sampleCache 11 "a.example".toList ⟨"old".toList, "site".toList, 0⟩
    (by decide)

theorem filter_key_set_self {κ ν : Type} [DecidableEq κ] (m : GoMap κ ν) (k : κ) (v : ν) :
    (m.set k v).entries.filter (fun e => decide (e.1 = k)) = [(k, v)] := by
  have hnil : (m.entries.filter (fun e => decide (e.1 ≠ k))).filter (fun e => decide (e.1 = k))
      = [] := by
    rw [List.filter_eq_nil_iff]
    intro e he
    have := (List.mem_filter.mp he).2
    simpa using this
  simp only [GoMap.set, List.filter_cons, decide_True, if_true, hnil]

theorem filter_key_set_ne {κ ν : Type} [DecidableEq κ] (m : GoMap κ ν) (k k1 : κ) (v : ν)
    (h : k1 ≠ k) :
    (m.set k v).entries.filter (fun e => decide (e.1 = k1))
      = m.entries.filter (fun e => decide (e.1 = k1)) := by
  have hk : ¬ k = k1 := fun e => h e.symm
  simp only [GoMap.set, List.filter_cons, hk, decide_False, List.filter_filter]
  apply List.filter_congr
  intro e _
  by_cases he : e.1 = k1
  · have : ¬ e.1 = k := fun e1 => h (he ▸ e1)
    simp [he, this, h]
  · simp [he]

/-- C12: after `updateCache(h, r, a)` at time `now` the mapping holds exactly one entry for
`h`, namely `(a, r, now)`, whatever it held before; `checkCache(h)` at a time `t'` with
`now ≤ t' < now + ttl` returns that entry as found; the entries of another hostname `h'`
are unchanged. -/
theorem updateCache_replaces {Access : Type} (t : TxtRecords Access) (now : Int)
    (h r : Str) (a : Access) (h' : Str) (t' : Int)
    (hne : h' ≠ h) (h1 : now ≤ t') (h2 : t' < now + t.ttl) :
    (updateCache t now h r a).cache.entries.filter (fun e => decide (e.1 = h))
      = [(h, ⟨a, r, now⟩)] ∧
    checkCache (updateCache t now h r a) t' h = (some ⟨a, r, now⟩, true) ∧
    (updateCache t now h r a).cache.entries.filter (fun e => decide (e.1 = h'))
      = t.cache.entries.filter (fun e => decide (e.1 = h')) ∧
    (updateCache t now h r a).cache.get? h' = t.cache.get? h' := by
  refine ⟨filter_key_set_self _ _ _, ?_, filter_key_set_ne _ _ _ _ hne,
    GoMap.get?_set_ne _ _ _ _ hne⟩
  have hnot : ¬ now + t.ttl < t' := by
    have _hage := h1
    omega
  unfold checkCache
  simp only [updateCache, GoMap.get?_set_self, recordIsExpired, hnot, decide_False,
    Bool.not_false, if_true]

theorem updateCache_replaces_witness :
    (updateCache sampleCache 100 "a.example".toList "bucket2".toList "new".toList).cache.entries.filter
        (fun e => decide (e.1 = "a.example".toList))
      = [("a.example".toList, ⟨"new".toList, "bucket2".toList, 100⟩)] ∧
    checkCache (updateCache sampleCache 100 "a.example".toList "bucket2".toList "new".toList) 109
        "a.example".toList
      = (some ⟨"new".toList, "bucket2".toList, 100⟩, true) ∧
    (updateCache sampleCache 100 "a.example".toList "bucket2".toList "new".toList).cache.entries.filter
        (fun e => decide (e.1 = "b.example".toList))
      = sampleCache.cache.entries.filter (fun e => decide (e.1 = "b.example".toList)) ∧
    (updateCache sampleCache 100 "a.example".toList "bucket2".toList "new".toList).cache.get?
        "b.example".toList
      = sampleCache.cache.get? "b.example".toList :=
  updateCache_replaces sampleCache 100 "a.example".toList "bucket2".toList "new".toList
    "b.example".toList 109 (by decide) (by decide) (by decide)

/-! ## Hosting mode: the object key -/

/-- C13, the code at the failing input: with the root `bucket1/folder1` and the request
path `/` the key asked of the backend is `folder1/`, not `folder1/index.html`; with the
request path `/folder2/index.html` it is `folder1/folder2/index.html`, and with the root
`bucket1` and the path `/` it is `index.html`. -/
theorem serveHosted_root_path_with_sub_prefix :
    serveHosted sampleEnv ⟨"GET".toList, "b.example:80".toList, "/".toList, []⟩ ()
        "bucket1/folder1".toList
      = (Event.statObject "bucket1".toList "folder1/".toList ::
          handleUplinkErr "stat object".toList
            ⟨ErrKind.objectNotFound, "uplink: object not found".toList⟩,
         Outcome.fail ⟨ErrKind.objectNotFound, "uplink: object not found".toList⟩) ∧
    serveHosted sampleEnv ⟨"GET".toList, "b.example:80".toList, "/folder2/index.html".toList, []⟩ ()
        "bucket1/folder1".toList
      = (Event.statObject "bucket1".toList "folder1/folder2/index.html".toList ::
          handleUplinkErr "stat object".toList
            ⟨ErrKind.objectNotFound, "uplink: object not found".toList⟩,
         Outcome.fail ⟨ErrKind.objectNotFound, "uplink: object not found".toList⟩) ∧
    serveHosted sampleEnv ⟨"GET".toList, "b.example:80".toList, "/".toList, []⟩ ()
        "bucket1".toList
      = (Event.statObject "bucket1".toList "index.html".toList ::
          handleUplinkErr "stat object".toList
            ⟨ErrKind.objectNotFound, "uplink: object not found".toList⟩,
         Outcome.fail ⟨ErrKind.objectNotFound, "uplink: object not found".toList⟩) := by
  decide

/-! ## Errors at the dispatcher -/

/-- C15, the code at the failing input: the base URL `http://localhost` is accepted by
`parseURLBase`, and for a handler built from it `serveHTTP` ends with the error of
`net.SplitHostPort` for every request, here `PUT /` and `GET /cred/testbucket/test/foo`
with `Host: localhost`, without any event: nothing is written to the response. -/
theorem serveHTTP_base_without_port :
    parseURLBase sampleUrlParse "http://localhost".toList = Except.ok localBase ∧
    serveHTTP sampleEnv localHandler 0 0 ⟨"PUT".toList, "localhost".toList, "/".toList, []⟩
      = (localHandler, [],
         Outcome.fail (addrError "localhost".toList "missing port in address".toList)) ∧
    serveHTTP sampleEnv localHandler 0 0
        ⟨"GET".toList, "localhost".toList, "/cred/testbucket/test/foo".toList, []⟩
      = (localHandler, [],
         Outcome.fail (addrError "localhost".toList "missing port in address".toList)) := by
  decide

/-- C16 fails as stated: a `PUT` whose `Host` is not the base host is handled in hosting
mode, where the method is not looked at: the TXT records of the host are looked up, and
the answer (the lookup failing) is 500, not 405. -/
theorem serveHTTP_put_in_hosting_mode :
    serveHTTP sampleEnv sampleHandler 0 0
        ⟨"PUT".toList, "b.example:80".toList, "/".toList, []⟩
      = (sampleHandler,
         [Event.lookupTXT "b.example".toList,
          Event.httpError "unable to handle request".toList 500],
         Outcome.fail ⟨ErrKind.other, "lookup: no such host".toList⟩) := by
  decide

/-- C16, amended: when the base host has a port and the request's `Host` equals the base
host with the port stripped (traditional mode), a request whose method is neither `GET`
nor `HEAD` is answered by 405 with the text `method not allowed`; that answer is the only
event, so no backend and no DNS is called, and the cache is untouched. -/
theorem serveHTTP_method_not_allowed {Access Project : Type} (env : Env Access Project)
    (handler : Handler Access) (now later : Int) (r : Request) (serverHost port : Str)
    (hbase : splitHostPort handler.urlBase.host = Except.ok (serverHost, port))
    (hhost : r.host = serverHost)
    (hget : r.method ≠ "GET".toList) (hhead : r.method ≠ "HEAD".toList) :
    serveHTTP env handler now later r
      = (handler, [Event.httpError "method not allowed".toList 405],
         Outcome.fail (errorsNew "method not allowed".toList)) := by
  unfold serveHTTP
  rw [hbase]
  simp only [hhost, ne_eq, not_true_eq_false, if_false, hget, hhead]

theorem serveHTTP_method_not_allowed_witness :
    serveHTTP sampleEnv sampleHandler 0 0 ⟨"PUT".toList, "host".toList, "/".toList, []⟩
      = (sampleHandler, [Event.httpError "method not allowed".toList 405],
         Outcome.fail (errorsNew "method not allowed".toList)) :=
  serveHTTP_method_not_allowed sampleEnv sampleHandler 0 0
    ⟨"PUT".toList, "host".toList, "/".toList, []⟩ "host".toList "99".toList
    (by decide) (by decide) (by decide) (by decide)

/-- C17: `handleUplinkErr` writes status 404 and renders the page `404.html` exactly for
a bucket-not-found error (with `Oops! Bucket not found.`) and for an object-not-found
error (with `Oops! Object not found.`); for every other error it answers 500 with the
text `unable to handle request`. The action name does not change the response. -/
theorem handleUplinkErr_status (action : Str) (err : Error) :
    ((∃ text, handleUplinkErr action err
        = [Event.writeHeader 404,
           Event.executeTemplate "404.html".toList (TemplateData.message text)]) ↔
      (err.kind = ErrKind.bucketNotFound ∨ err.kind = ErrKind.objectNotFound)) ∧
    (err.kind = ErrKind.bucketNotFound →
      handleUplinkErr action err
        = [Event.writeHeader 404,
           Event.executeTemplate "404.html".toList
             (TemplateData.message "Oops! Bucket not found.".toList)]) ∧
    (err.kind = ErrKind.objectNotFound →
      handleUplinkErr action err
        = [Event.writeHeader 404,
           Event.executeTemplate "404.html".toList
             (TemplateData.message "Oops! Object not found.".toList)]) ∧
    (err.kind = ErrKind.other →
      handleUplinkErr action err = [Event.httpError "unable to handle request".toList 500]) := by
  obtain ⟨kind, msg⟩ := err
  cases kind <;> simp [handleUplinkErr]

/-! ## Traditional mode: object requests -/

/-- What `handleTraditional` does once the path is parsed and the project is open. -/
theorem handleTraditional_opened {Access Project : Type} (env : Env Access Project)
    (urlBase : URL) (r : Request) (locationOnly : Bool) (rp : RequestPath Access)
    (project : Project)
    (hparse : parseRequestPath env.parseAccess r.path = Outcome.ok rp)
    (hopen : env.openProject rp.access = Except.ok project) :
    handleTraditional env urlBase r locationOnly
      = (Event.openProject :: (handleOpened env urlBase r locationOnly project rp).1 ++
           [Event.closeProject],
         (handleOpened env urlBase r locationOnly project rp).2) := by
  unfold handleTraditional
  rw [hparse]
  simp only [hopen]

/-- C18: a HEAD request in traditional mode whose path parses to a key that is not empty
and does not end in `/`, and whose object exists, is answered by a 302 redirect to the
base URL with the base path joined with the request path (`makeLocation`); the events are
open project, stat object, redirect, close project, so no content is served. -/
theorem handleTraditional_head_location {Access Project : Type} (env : Env Access Project)
    (urlBase : URL) (r : Request) (rp : RequestPath Access) (project : Project) (o : Object)
    (hparse : parseRequestPath env.parseAccess r.path = Outcome.ok rp)
    (hkey : rp.key ≠ []) (hslash : hasSuffix rp.key "/".toList = false)
    (hopen : env.openProject rp.access = Except.ok project)
    (hstat : env.statObject project rp.bucket rp.key = Except.ok o) :
    handleTraditional env urlBase r true
      = ([Event.openProject, Event.statObject rp.bucket rp.key,
          Event.redirect
            (env.urlString { urlBase with path := env.pathJoin urlBase.path r.path }) 302,
          Event.closeProject], Outcome.ok ()) := by
  rw [handleTraditional_opened env urlBase r true rp project hparse hopen]
  have hslash1 : hasSuffix rp.key ['/'] = false := hslash
  unfold handleOpened
  simp [hkey, hslash1, hstat, makeLocation]

theorem handleTraditional_head_location_witness :
    handleTraditional sampleEnvFoo localBase
        ⟨"HEAD".toList, "localhost".toList, "/cred/testbucket/test/foo".toList, []⟩ true
      = ([Event.openProject, Event.statObject "testbucket".toList "test/foo".toList,
          Event.redirect "http://localhost/cred/testbucket/test/foo".toList 302,
          Event.closeProject], Outcome.ok ()) :=
  handleTraditional_head_location sampleEnvFoo localBase
    ⟨"HEAD".toList, "localhost".toList, "/cred/testbucket/test/foo".toList, []⟩
    ⟨false, "cred".toList, "cred".toList, "testbucket".toList, "test/foo".toList⟩ () sampleObject
    (by decide) (by decide) (by decide) (by decide) (by decide)

theorem splitN_getLast (sep : Char) (n : Nat) (s : Str) (hn : s.count sep ≤ n) :
    ∃ t, (splitN sep (n + 1) s).getLast? = some t ∧ sep ∉ t ∧
      (s = t ∨ ∃ pre, s = pre ++ sep :: t) := by
  induction n generalizing s with
  | zero =>
    refine ⟨s, by simp [splitN], ?_, Or.inl rfl⟩
    exact List.count_eq_zero.mp (by omega)
  | succ n ih =>
    cases hcut : cut sep s with
    | none => exact ⟨s, by simp [splitN, hcut], cut_none sep s hcut, Or.inl rfl⟩
    | some q =>
      obtain ⟨a, b⟩ := q
      obtain ⟨hs, _⟩ := cut_some sep s a b hcut
      have hb : b.count sep ≤ n := by
        rw [hs, List.count_append, List.count_cons_self] at hn
        omega
      obtain ⟨t, ht, hnt, hform⟩ := ih b hb
      refine ⟨t, ?_, hnt, ?_⟩
      · simp only [splitN, hcut, List.getLast?_cons, ht, Option.getD_some]
      · right
        rcases hform with h | ⟨pre, h⟩
        · exact ⟨a, by rw [hs, h]⟩
        · exact ⟨a ++ sep :: pre, by rw [hs, h]; simp⟩

theorem afterLastSlash_of_form (key t : Str) (ht : '/' ∉ t)
    (hform : key = t ∨ ∃ pre, key = pre ++ '/' :: t) : afterLastSlash key = t := by
  have hall : ∀ c ∈ t.reverse, (c != '/') = true := by
    intro c hc
    have hct : c ∈ t := List.mem_reverse.mp hc
    have : c ≠ '/' := fun e => ht (e ▸ hct)
    simpa using this
  unfold afterLastSlash
  rcases hform with h | ⟨pre, h⟩
  · rw [h]
    have := @List.takeWhile_append_of_pos _ _ _ [] hall
    simp only [List.append_nil, List.takeWhile_nil] at this
    rw [this, List.reverse_reverse]
  · rw [h, List.reverse_append, List.reverse_cons, List.append_assoc,
      List.takeWhile_append_of_pos hall]
    simp

/-- The last piece of `strings.Split(key, "/")` is the part of the key after its last `/`. -/
theorem split_getLast (key : Str) :
    (split '/' key).getLast? = some (afterLastSlash key) ∧ '/' ∉ afterLastSlash key ∧
      (key = afterLastSlash key ∨ ∃ pre, key = pre ++ '/' :: afterLastSlash key) := by
  obtain ⟨t, ht, hnt, hform⟩ := splitN_getLast '/' (key.count '/') key (le_refl _)
  have he := afterLastSlash_of_form key t hnt hform
  rw [he]
  exact ⟨ht, hnt, hform⟩

theorem afterLastSlash_ne_nil (key : Str) (hkey : key ≠ [])
    (hslash : hasSuffix key "/".toList = false) : afterLastSlash key ≠ [] := by
  intro hnil
  obtain ⟨_, _, hform⟩ := split_getLast key
  rw [hnil] at hform
  rcases hform with h | ⟨pre, h⟩
  · exact hkey h
  · have hsuf : hasSuffix key "/".toList = true := by
      rw [h, slash_toList]
      exact List.isSuffixOf_iff_suffix.mpr (List.suffix_append pre ['/'])
    rw [hsuf] at hslash
    exact Bool.noConfusion hslash

/-- C19: a GET request in traditional mode with the `download` query flag, whose path
parses to a key that is not empty and does not end in `/` and whose object exists, is
answered with the header `Content-Disposition: attachment; filename="s"` and the content,
where `s` is the part of the key after its last `/`; `s` is not empty and holds no `/`,
and the handler ends without a panic. -/
theorem handleTraditional_download_header {Access Project : Type} (env : Env Access Project)
    (urlBase : URL) (r : Request) (rp : RequestPath Access) (project : Project) (o : Object)
    (hparse : parseRequestPath env.parseAccess r.path = Outcome.ok rp)
    (hkey : rp.key ≠ []) (hslash : hasSuffix rp.key "/".toList = false)
    (hopen : env.openProject rp.access = Except.ok project)
    (hstat : env.statObject project rp.bucket rp.key = Except.ok o)
    (hdl : "download".toList ∈ r.query) :
    afterLastSlash rp.key ≠ [] ∧ '/' ∉ afterLastSlash rp.key ∧
    handleTraditional env urlBase r false
      = ([Event.openProject, Event.statObject rp.bucket rp.key,
          Event.setHeader "Content-Disposition".toList
            ("attachment; filename=".toList ++ dquote :: afterLastSlash rp.key ++ [dquote]),
          Event.serveContent rp.key o.Created ⟨o, rp.bucket⟩,
          Event.closeProject], Outcome.ok ()) := by
  refine ⟨afterLastSlash_ne_nil rp.key hkey hslash, (split_getLast rp.key).2.1, ?_⟩
  rw [handleTraditional_opened env urlBase r false rp project hparse hopen]
  have hslash1 : hasSuffix rp.key ['/'] = false := hslash
  have hdl1 : ['d', 'o', 'w', 'n', 'l', 'o', 'a', 'd'] ∈ r.query := hdl
  have hlast := (split_getLast rp.key).1
  unfold handleOpened
  simp [hkey, hslash1, hstat, hdl1, hlast]

theorem handleTraditional_download_header_witness :
    afterLastSlash "test/foo".toList ≠ [] ∧ '/' ∉ afterLastSlash "test/foo".toList ∧
    handleTraditional sampleEnvFoo localBase
        ⟨"GET".toList, "localhost".toList, "/cred/testbucket/test/foo".toList,
          ["download".toList]⟩ false
      = ([Event.openProject, Event.statObject "testbucket".toList "test/foo".toList,
          Event.setHeader "Content-Disposition".toList
            ("attachment; filename=".toList ++ dquote :: "foo".toList ++ [dquote]),
          Event.serveContent "test/foo".toList 0 ⟨sampleObject, "testbucket".toList⟩,
          Event.closeProject], Outcome.ok ()) :=
  handleTraditional_download_header sampleEnvFoo localBase
    ⟨"GET".toList, "localhost".toList, "/cred/testbucket/test/foo".toList, ["download".toList]⟩
    ⟨false, "cred".toList, "cred".toList, "testbucket".toList, "test/foo".toList⟩ () sampleObject
    (by decide) (by decide) (by decide) (by decide) (by decide) (by decide)

/-! ## The base URL -/

/-- C20: a URL that `url.Parse` returns is accepted by `parseURLBase` exactly when its
scheme is `http` or `https`, its host is not empty, it has no user info, and its query
and its fragment are empty; otherwise the error names the first of these rules, in this
order, that the URL breaks. -/
theorem parseURLBase_accepts_iff (urlParse : Str → Except Error URL) (s : Str) (u : URL)
    (hparse : urlParse s = Except.ok u) :
    (parseURLBase urlParse s = Except.ok u ↔
      (u.scheme = "http".toList ∨ u.scheme = "https".toList) ∧ u.host ≠ [] ∧ u.user = none ∧
        u.rawQuery = [] ∧ u.fragment = []) ∧
    (¬ (u.scheme = "http".toList ∨ u.scheme = "https".toList) →
      parseURLBase urlParse s
        = Except.error (errorsNew "URL base must be http:// or https://".toList)) ∧
    ((u.scheme = "http".toList ∨ u.scheme = "https".toList) → u.host = [] →
      parseURLBase urlParse s = Except.error (errorsNew "URL base must contain host".toList)) ∧
    ((u.scheme = "http".toList ∨ u.scheme = "https".toList) → u.host ≠ [] → u.user ≠ none →
      parseURLBase urlParse s
        = Except.error (errorsNew "URL base must not contain user info".toList)) ∧
    ((u.scheme = "http".toList ∨ u.scheme = "https".toList) → u.host ≠ [] → u.user = none →
      u.rawQuery ≠ [] →
      parseURLBase urlParse s
        = Except.error (errorsNew "URL base must not contain query values".toList)) ∧
    ((u.scheme = "http".toList ∨ u.scheme = "https".toList) → u.host ≠ [] → u.user = none →
      u.rawQuery = [] → u.fragment ≠ [] →
      parseURLBase urlParse s
        = Except.error (errorsNew "URL base must not contain a fragment".toList)) := by
  unfold parseURLBase
  rw [hparse]
  generalize "http".toList = http
  generalize "https".toList = https
  by_cases h1 : u.scheme = http
  · by_cases h3 : u.host = [] <;> by_cases h4 : u.user = none <;>
      by_cases h5 : u.rawQuery = [] <;> by_cases h6 : u.fragment = [] <;>
      simp [h1, h3, h4, h5, h6, errorsNew]
  · by_cases h2 : u.scheme = https
    · by_cases h3 : u.host = [] <;> by_cases h4 : u.user = none <;>
        by_cases h5 : u.rawQuery = [] <;> by_cases h6 : u.fragment = [] <;>
        simp [h1, h2, h3, h4, h5, h6, errorsNew]
    · simp [h1, h2, errorsNew]

theorem parseURLBase_accepts_iff_witness :
    (parseURLBase sampleUrlParse "http://host:99".toList = Except.ok sampleBase ↔
      (sampleBase.scheme = "http".toList ∨ sampleBase.scheme = "https".toList) ∧
        sampleBase.host ≠ [] ∧ sampleBase.user = none ∧
        sampleBase.rawQuery = [] ∧ sampleBase.fragment = []) ∧
    (¬ (sampleBase.scheme = "http".toList ∨ sampleBase.scheme = "https".toList) →
      parseURLBase sampleUrlParse "http://host:99".toList
        = Except.error (errorsNew "URL base must be http:// or https://".toList)) ∧
    ((sampleBase.scheme = "http".toList ∨ sampleBase.scheme = "https".toList) →
      sampleBase.host = [] →
      parseURLBase sampleUrlParse "http://host:99".toList
        = Except.error (errorsNew "URL base must contain host".toList)) ∧
    ((sampleBase.scheme = "http".toList ∨ sampleBase.scheme = "https".toList) →
      sampleBase.host ≠ [] → sampleBase.user ≠ none →
      parseURLBase sampleUrlParse "http://host:99".toList
        = Except.error (errorsNew "URL base must not contain user info".toList)) ∧
    ((sampleBase.scheme = "http".toList ∨ sampleBase.scheme = "https".toList) →
      sampleBase.host ≠ [] → sampleBase.user = none → sampleBase.rawQuery ≠ [] →
      parseURLBase sampleUrlParse "http://host:99".toList
        = Except.error (errorsNew "URL base must not contain query values".toList)) ∧
    ((sampleBase.scheme = "http".toList ∨ sampleBase.scheme = "https".toList) →
      sampleBase.host ≠ [] → sampleBase.user = none → sampleBase.rawQuery = [] →
      sampleBase.fragment ≠ [] →
      parseURLBase sampleUrlParse "http://host:99".toList
        = Except.error (errorsNew "URL base must not contain a fragment".toList)) :=
  parseURLBase_accepts_iff sampleUrlParse "http://host:99".toList sampleBase (by decide)

/-! ## Breadcrumbs -/

theorem dirPrefix_eq_joinSlash (xs : List Str) (hne : xs ≠ []) :
    dirPrefix xs = joinSlash xs ++ ['/'] := by
  induction xs with
  | nil => exact absurd rfl hne
  | cons x xs ih =>
    cases xs with
    | nil => simp [dirPrefix, joinSlash]
    | cons y rest =>
      have := ih (by simp)
      simp only [dirPrefix, joinSlash] at this ⊢
      rw [this]
      simp

/-- The joined components end in a byte that is no `/`. -/
theorem joinSlash_reverse (xs : List Str) (hne : xs ≠ [])
    (hxs : ∀ x ∈ xs, x ≠ [] ∧ '/' ∉ x) :
    ∃ c t, (joinSlash xs).reverse = c :: t ∧ c ≠ '/' := by
  induction xs with
  | nil => exact absurd rfl hne
  | cons x xs ih =>
    cases xs with
    | nil =>
      obtain ⟨hx, hs⟩ := hxs x (by simp)
      cases hr : x.reverse with
      | nil => exact absurd (List.reverse_eq_nil_iff.mp hr) hx
      | cons c t =>
        refine ⟨c, t, by simp [joinSlash, hr], ?_⟩
        intro hc
        have hmem : c ∈ x := List.mem_reverse.mp (by rw [hr]; simp)
        exact hs (hc ▸ hmem)
    | cons y rest =>
      obtain ⟨c, t, hct, hc⟩ := ih (by simp) (fun z hz => hxs z (by simp [hz]))
      refine ⟨c, t ++ '/' :: x.reverse, ?_, hc⟩
      simp only [joinSlash, List.reverse_append, List.reverse_cons, List.append_assoc] at hct ⊢
      rw [hct]
      simp

theorem trimRight_append_slash (s : Str) (c : Char) (t : Str) (hs : s.reverse = c :: t)
    (hc : c ≠ '/') : trimRight (s ++ ['/']) '/' = s := by
  have hbeq : (c == '/') = false := by simpa using hc
  unfold trimRight
  rw [List.reverse_append, hs]
  simp only [List.reverse_cons, List.reverse_nil, List.nil_append, List.singleton_append,
    List.dropWhile_cons, beq_self_eq_true, if_true, hbeq]
  simp only [Bool.false_eq_true, if_false]
  rw [← hs, List.reverse_reverse]

theorem splitN_joinSlash (xs : List Str) (hne : xs ≠ []) (hxs : ∀ x ∈ xs, '/' ∉ x) :
    splitN '/' xs.length (joinSlash xs) = xs := by
  induction xs with
  | nil => exact absurd rfl hne
  | cons x xs ih =>
    cases xs with
    | nil => simp [splitN, joinSlash]
    | cons y rest =>
      have h1 := ih (by simp) (fun z hz => hxs z (by simp [hz]))
      simp only [joinSlash, List.length_cons] at h1 ⊢
      rw [splitN_append_sep '/' rest.length x _ (hxs x (by simp)), h1]

theorem count_joinSlash (xs : List Str) (hne : xs ≠ []) (hxs : ∀ x ∈ xs, '/' ∉ x) :
    (joinSlash xs).count '/' + 1 = xs.length := by
  induction xs with
  | nil => exact absurd rfl hne
  | cons x xs ih =>
    have hx : List.count '/' x = 0 := List.count_eq_zero.mpr (hxs x (by simp))
    cases xs with
    | nil => simp [joinSlash, hx]
    | cons y rest =>
      have h1 := ih (by simp) (fun z hz => hxs z (by simp [hz]))
      simp only [joinSlash, List.length_cons, List.count_append, List.count_cons_self, hx]
        at h1 ⊢
      omega

theorem split_joinSlash (xs : List Str) (hne : xs ≠ []) (hxs : ∀ x ∈ xs, '/' ∉ x) :
    split '/' (joinSlash xs) = xs := by
  unfold split
  rw [count_joinSlash xs hne hxs, splitN_joinSlash xs hne hxs]

/-- The breadcrumb loop, started at the index of the last breadcrumb built so far. -/
theorem appendBreadcrumbs_enumFrom (xs : List Str) (crumbs : List Breadcrumb) (last : Breadcrumb) :
    appendBreadcrumbs (xs.enumFrom crumbs.length) (crumbs ++ [last])
      = some (crumbs ++ [last] ++ crumbsAfter last.URL xs) := by
  induction xs generalizing crumbs last with
  | nil => simp [appendBreadcrumbs, crumbsAfter]
  | cons x xs ih =>
    have hnext := ih (crumbs ++ [last]) ⟨x, last.URL ++ '/' :: x ++ ['/']⟩
    simp only [List.length_append, List.length_singleton] at hnext
    simp only [List.enumFrom_cons, appendBreadcrumbs, List.getElem?_concat_length, hnext,
      crumbsAfter]
    simp

/-- The breadcrumbs of a prefix `x1/x2/.../xn/`: the bucket, then one for each component. -/
theorem breadcrumbs_dirPrefix (c b : Str) (xs : List Str) (hxs : ∀ x ∈ xs, x ≠ [] ∧ '/' ∉ x) :
    breadcrumbs c b (dirPrefix xs)
      = some (⟨b, c ++ '/' :: b ++ ['/']⟩ :: crumbsAfter (c ++ '/' :: b ++ ['/']) xs) := by
  cases hx : xs with
  | nil => simp [breadcrumbs, dirPrefix, crumbsAfter]
  | cons y rest =>
    have hne : xs ≠ [] := by rw [hx]; simp
    have hpne : dirPrefix xs ≠ [] := by
      rw [dirPrefix_eq_joinSlash xs hne]; simp
    obtain ⟨ch, t, hrev, hch⟩ := joinSlash_reverse xs hne hxs
    have htrim : trimRight (dirPrefix xs) '/' = joinSlash xs := by
      rw [dirPrefix_eq_joinSlash xs hne]
      exact trimRight_append_slash _ ch t hrev hch
    have hsplit := split_joinSlash xs hne (fun z hz => (hxs z hz).2)
    have hloop := appendBreadcrumbs_enumFrom xs [] ⟨b, c ++ '/' :: b ++ ['/']⟩
    simp only [List.length_nil, List.nil_append, List.singleton_append] at hloop
    rw [← hx]
    unfold breadcrumbs
    simp only [hpne, ne_eq, not_false_eq_true, if_true, htrim, hsplit, List.enum]
    exact hloop

theorem map_Prefix_crumbsAfter (url : Str) (xs : List Str) :
    (crumbsAfter url xs).map (fun crumb => crumb.Prefix) = xs := by
  induction xs generalizing url with
  | nil => rfl
  | cons x xs ih => simp [crumbsAfter, ih]

/-- The URL of the breadcrumb of the component `k`: the URL before the components, and
then `/`, the component and `/` for each component up to `k`. -/
theorem getElem?_crumbsAfter (url : Str) (xs : List Str) (k : Nat) (x : Str)
    (hk : xs[k]? = some x) :
    (crumbsAfter url xs)[k]?
      = some ⟨x, url ++ ((xs.take (k + 1)).map (fun y => '/' :: y ++ ['/'])).flatten⟩ := by
  induction xs generalizing url k with
  | nil => simp at hk
  | cons y ys ih =>
    cases k with
    | zero =>
      simp only [List.getElem?_cons_zero, Option.some.injEq] at hk
      simp [crumbsAfter, hk]
    | succ k =>
      simp only [List.getElem?_cons_succ] at hk
      simp only [crumbsAfter, List.getElem?_cons_succ, ih _ k hk]
      simp

/-- C14 fails as stated: for the prefix `a/b/c/` the breadcrumbs handed to the listing
page have the URLs `cred/bucket/`, `cred/bucket//a/`, `cred/bucket//a//b/` and
`cred/bucket//a//b//c/`: every step adds `/`, the component and `/`. -/
theorem servePrefix_breadcrumbs_abc :
    servePrefix sampleEnv () "cred".toList "bucket".toList "a/b/c/".toList
      = ([Event.listObjects "bucket".toList "a/b/c/".toList,
          Event.executeTemplate "prefix-listing.html".toList
            (TemplateData.listing "bucket".toList
              [⟨"bucket".toList, "cred/bucket/".toList⟩,
               ⟨"a".toList, "cred/bucket//a/".toList⟩,
               ⟨"b".toList, "cred/bucket//a//b/".toList⟩,
               ⟨"c".toList, "cred/bucket//a//b//c/".toList⟩] [])],
         Outcome.ok ()) := by
  decide

/-- C14, amended: for a serialized credential `c`, a bucket `b` and a prefix
`x1/x2/.../xn/` whose components are not empty and hold no `/`, `servePrefix` builds
`n + 1` breadcrumbs labelled `b, x1, ..., xn` in this order; the first URL is `c/b/`, and
the URL of each later breadcrumb is the URL before it followed by `/`, the component and
`/`, so the breadcrumb of `xk` has the URL `c/b/` followed by `/x1/`, ..., `/xk/`. When
the listing succeeds, these breadcrumbs are handed to the listing page. -/
theorem servePrefix_breadcrumbs {Access Project : Type} (env : Env Access Project)
    (project : Project) (c b : Str) (xs : List Str) (items : List Item)
    (hxs : ∀ x ∈ xs, x ≠ [] ∧ '/' ∉ x)
    (hitems : listItems env.base10String (dirPrefix xs)
      (env.listObjects project b (dirPrefix xs)).1 = some items)
    (herr : (env.listObjects project b (dirPrefix xs)).2 = none) :
    breadcrumbs c b (dirPrefix xs)
      = some (⟨b, c ++ '/' :: b ++ ['/']⟩ :: crumbsAfter (c ++ '/' :: b ++ ['/']) xs) ∧
    (crumbsAfter (c ++ '/' :: b ++ ['/']) xs).length = xs.length ∧
    (crumbsAfter (c ++ '/' :: b ++ ['/']) xs).map (fun crumb => crumb.Prefix) = xs ∧
    (∀ (k : Nat) (x : Str), xs[k]? = some x →
      (crumbsAfter (c ++ '/' :: b ++ ['/']) xs)[k]?
        = some ⟨x, (c ++ '/' :: b ++ ['/']) ++
            ((xs.take (k + 1)).map (fun y => '/' :: y ++ ['/'])).flatten⟩) ∧
    (servePrefix env project c b (dirPrefix xs)).1
      = [Event.listObjects b (dirPrefix xs),
         Event.executeTemplate "prefix-listing.html".toList
           (TemplateData.listing b
             (⟨b, c ++ '/' :: b ++ ['/']⟩ :: crumbsAfter (c ++ '/' :: b ++ ['/']) xs) items)] := by
  have hcr := breadcrumbs_dirPrefix c b xs hxs
  have hmap := map_Prefix_crumbsAfter (c ++ '/' :: b ++ ['/']) xs
  refine ⟨hcr, ?_, hmap, fun k x hk => getElem?_crumbsAfter _ xs k x hk, ?_⟩
  · have := congrArg List.length hmap
    simpa using this
  · unfold servePrefix
    rw [hcr]
    simp only [hitems, herr]

theorem servePrefix_breadcrumbs_witness :
    breadcrumbs "cred".toList "bucket".toList (dirPrefix ["a".toList, "b".toList])
      = some (⟨"bucket".toList, "cred".toList ++ '/' :: "bucket".toList ++ ['/']⟩ ::
          crumbsAfter ("cred".toList ++ '/' :: "bucket".toList ++ ['/'])
            ["a".toList, "b".toList]) ∧
    (crumbsAfter ("cred".toList ++ '/' :: "bucket".toList ++ ['/'])
      ["a".toList, "b".toList]).length = ["a".toList, "b".toList].length ∧
    (crumbsAfter ("cred".toList ++ '/' :: "bucket".toList ++ ['/'])
      ["a".toList, "b".toList]).map (fun crumb => crumb.Prefix) = ["a".toList, "b".toList] ∧
    (∀ (k : Nat) (x : Str), ["a".toList, "b".toList][k]? = some x →
      (crumbsAfter ("cred".toList ++ '/' :: "bucket".toList ++ ['/'])
          ["a".toList, "b".toList])[k]?
        = some ⟨x, ("cred".toList ++ '/' :: "bucket".toList ++ ['/']) ++
            ((["a".toList, "b".toList].take (k + 1)).map
              (fun y => '/' :: y ++ ['/'])).flatten⟩) ∧
    (servePrefix sampleEnv () "cred".toList "bucket".toList
        (dirPrefix ["a".toList, "b".toList])).1
      = [Event.listObjects "bucket".toList (dirPrefix ["a".toList, "b".toList]),
         Event.executeTemplate "prefix-listing.html".toList
           (TemplateData.listing "bucket".toList
             (⟨"bucket".toList, "cred".toList ++ '/' :: "bucket".toList ++ ['/']⟩ ::
               crumbsAfter ("cred".toList ++ '/' :: "bucket".toList ++ ['/'])
                 ["a".toList, "b".toList]) [])] :=
  servePrefix_breadcrumbs sampleEnv () "cred".toList "bucket".toList
    ["a".toList, "b".toList] [] (by decide) (by decide) (by decide)

/-! ## The TXT record resolver: malformed records -/

/-- C21, the code at the failing inputs: on the record `storj_root` or `storj_grant-1`
(no `:`) and on `storj_grant:abc` (no `-` in the key) `parseRecords` ends in a panic, the
index out of range at `r[1]` or `section[1]`; it returns neither a result nor an error,
and so do `getRootAndAccess` and `handleHostingService` when DNS gives such a record. -/
theorem parseRecords_malformed_record_panics :
    parseRecords keepSerialized ["storj_root".toList] = Outcome.panic ∧
    parseRecords keepSerialized ["storj_grant-1".toList] = Outcome.panic ∧
    parseRecords keepSerialized ["storj_grant:abc".toList] = Outcome.panic ∧
    parseRecords keepSerialized
        ["storj_grant-1:abcd".toList, "storj_root:bucket1".toList, "storj_grant".toList]
      = Outcome.panic ∧
    handleHostingService
        { sampleEnv with lookupTXT := fun _ => Except.ok ["storj_root".toList] }
        sampleHandler 0 0 ⟨"GET".toList, "b.example:80".toList, "/".toList, []⟩
      = (sampleHandler, [Event.lookupTXT "b.example".toList], Outcome.panic) := by
  decide

/-! ## The credential cache: failed resolutions -/

/-- C22: when `getRootAndAccess` returns an error, the cache it leaves behind is the cache
it was given, with the entry of that hostname (stale or absent) as it was. -/
theorem getRootAndAccess_error_keeps_cache {Access Project : Type} (env : Env Access Project)
    (t : TxtRecords Access) (now later : Int) (hostname : Str) (err : Error)
    (hres : (getRootAndAccess env t now later hostname).2.2 = Outcome.fail err) :
    (getRootAndAccess env t now later hostname).1 = t ∧
    (getRootAndAccess env t now later hostname).1.cache.get? hostname
      = t.cache.get? hostname := by
  have hkeep : (getRootAndAccess env t now later hostname).1 = t := by
    unfold getRootAndAccess at hres ⊢
    cases hr : getRemoteRecord env hostname with
    | mk events out =>
      rw [hr] at hres
      cases hc : checkCache t now hostname with
      | mk rec found =>
        rw [hc] at hres
        cases rec with
        | none =>
          cases out with
          | ok v => simp at hres
          | fail e => rfl
          | panic => rfl
        | some record =>
          cases found with
          | true => simp at hres
          | false =>
            cases out with
            | ok v => simp at hres
            | fail e => rfl
            | panic => rfl
  exact ⟨hkeep, by rw [hkeep]⟩

theorem getRootAndAccess_error_keeps_cache_witness :
    (getRootAndAccess sampleEnv sampleCache 100 100 "a.example".toList).1 = sampleCache ∧
    (getRootAndAccess sampleEnv sampleCache 100 100 "a.example".toList).1.cache.get?
        "a.example".toList
      = sampleCache.cache.get? "a.example".toList :=
  getRootAndAccess_error_keeps_cache sampleEnv sampleCache 100 100 "a.example".toList
    ⟨ErrKind.other, "lookup: no such host".toList⟩ (by decide)

/-! ## Breadcrumbs: the prefix chain -/

theorem properPrefixURL_step (l x u : Str) :
    ProperPrefixURL ⟨l, u⟩ ⟨x, u ++ '/' :: x ++ ['/']⟩ := by
  refine ⟨⟨'/' :: x ++ ['/'], by simp⟩, ?_⟩
  intro h
  have hlen := congrArg List.length h
  simp at hlen

theorem chain_crumbsAfter (xs : List Str) (l u : Str) :
    List.Chain ProperPrefixURL ⟨l, u⟩ (crumbsAfter u xs) := by
  induction xs generalizing l u with
  | nil => exact List.Chain.nil
  | cons x xs ih =>
    simp only [crumbsAfter, List.chain_cons]
    exact ⟨properPrefixURL_step l x u, ih x _⟩

theorem length_crumbsAfter (url : Str) (xs : List Str) :
    (crumbsAfter url xs).length = xs.length := by
  have := congrArg List.length (map_Prefix_crumbsAfter url xs)
  simpa using this

/-- The breadcrumbs of any prefix: the bucket, then one for each piece of the trimmed
prefix; the loop never reads past the breadcrumbs built so far. -/
theorem breadcrumbs_eq (c b pfx : Str) :
    breadcrumbs c b pfx
      = some (⟨b, c ++ '/' :: b ++ ['/']⟩ ::
          crumbsAfter (c ++ '/' :: b ++ ['/'])
            (if pfx = [] then [] else split '/' (trimRight pfx '/'))) := by
  by_cases hp : pfx = []
  · simp [breadcrumbs, hp, crumbsAfter]
  · have hloop := appendBreadcrumbs_enumFrom (split '/' (trimRight pfx '/')) []
      ⟨b, c ++ '/' :: b ++ ['/']⟩
    simp only [List.length_nil, List.nil_append, List.singleton_append] at hloop
    unfold breadcrumbs
    simp only [hp, ne_eq, not_false_eq_true, if_true, if_false, List.enum]
    exact hloop

/-- C23 fails as stated: the prefixes `""` and `/` have the same trimmed prefix, the empty
string, yet the first gives one breadcrumb and the second two (the bucket and a
breadcrumb with an empty label), so the number of breadcrumbs is not one more than a
number of components of the trimmed prefix. -/
theorem breadcrumbs_count_not_of_trimmed :
    trimRight "".toList '/' = trimRight "/".toList '/' ∧
    breadcrumbs "cred".toList "bucket".toList "".toList
      = some [⟨"bucket".toList, "cred/bucket/".toList⟩] ∧
    breadcrumbs "cred".toList "bucket".toList "/".toList
      = some [⟨"bucket".toList, "cred/bucket/".toList⟩, ⟨[], "cred/bucket///".toList⟩] := by
  decide

/-- C23, amended: for every serialized credential, bucket and prefix the breadcrumbs of
`servePrefix` are built without reading out of range; the first is the bucket with the
URL `credential/bucket/`; the URL of each breadcrumb is a proper prefix of the URL of the
next; and their number is one for the empty prefix and otherwise one more than the number
of pieces `strings.Split` gives for the trimmed prefix (a prefix of `/` only has one
empty piece). When the listing succeeds, these breadcrumbs are handed to the listing
page. -/
theorem breadcrumbs_chain {Access Project : Type} (env : Env Access Project)
    (project : Project) (c b pfx : Str) :
    ∃ crumbs : List Breadcrumb,
      breadcrumbs c b pfx = some crumbs ∧
      crumbs.head? = some ⟨b, c ++ '/' :: b ++ ['/']⟩ ∧
      List.Chain' ProperPrefixURL crumbs ∧
      crumbs.length
        = (if pfx = [] then 1 else (split '/' (trimRight pfx '/')).length + 1) ∧
      ∀ items : List Item,
        listItems env.base10String pfx (env.listObjects project b pfx).1 = some items →
        (env.listObjects project b pfx).2 = none →
        (servePrefix env project c b pfx).1
          = [Event.listObjects b pfx,
             Event.executeTemplate "prefix-listing.html".toList
               (TemplateData.listing b crumbs items)] := by
  refine ⟨_, breadcrumbs_eq c b pfx, rfl, chain_crumbsAfter _ b _, ?_, ?_⟩
  · rw [List.length_cons, length_crumbsAfter]
    by_cases hp : pfx = [] <;> simp [hp]
  · intro items hitems herr
    unfold servePrefix
    rw [breadcrumbs_eq c b pfx]
    simp only [hitems, herr]

end Linksharing
